import Mathlib

/-!
Verification of the meeting-sync action-item pipeline: a shallow embedding of
the action-item extraction engine of `meeting_sync.py` and of the interactive
checklist renderer/reducer of `bot.py`, together with theorems settling the
specification claims about them.

Strings are modelled by Lean `String`/`List Char`; the ASCII fragments of
Python's regex character classes and case folding are used (all pattern
literals in the source are ASCII).
-/

namespace MeetingSync

/-! ### Character classes (ASCII model of Python's regex classes) -/

/-- Python regex `\s` (ASCII range): space, tab, newline, carriage return,
vertical tab, form feed. -/
def isSpaceChar (c : Char) : Bool :=
  c = ' ' || c = '\t' || c = '\n' || c = '\r' || c = '\x0b' || c = '\x0c'

/-- Python regex `\w` (ASCII range): letters, digits, underscore. -/
def isWordChar (c : Char) : Bool :=
  c.isAlpha || c.isDigit || c = '_'

/-- Lowercased character list of a string (models `re.IGNORECASE` matching /
`str.lower()` on the ASCII patterns used by the source). -/
def lowerL (s : String) : List Char :=
  s.toList.map Char.toLower

/-! ### Small matching combinators used to embed the regex pattern sets -/

/-- Drop `p` from the front of `s` if it is literally a prefix. -/
def dropPref : List Char → List Char → Option (List Char)
  | [], s => some s
  | _ :: _, [] => none
  | p :: ps, c :: cs => if p = c then dropPref ps cs else none

/-- Does any alternative match as a literal prefix?  (Regex alternation whose
alternatives end the pattern: success does not depend on alternation order.) -/
def anyPref (alts : List String) (s : List Char) : Bool :=
  alts.any fun a => (dropPref a.toList s).isSome

/-- Regex alternation followed by a continuation `k` (backtracking semantics:
the whole thing matches iff some alternative matches and `k` accepts the
rest). -/
def anyPrefThen (alts : List String) (k : List Char → Bool) (s : List Char) : Bool :=
  alts.any fun a =>
    match dropPref a.toList s with
    | some r => k r
    | none => false

/-- `\s+` followed by a non-space: consume one or more whitespace characters
greedily (the continuation in every use site starts with a letter, so greedy
matching never needs to backtrack). -/
def skipWs1 (s : List Char) : Option (List Char) :=
  match s with
  | c :: r => if isSpaceChar c then some (r.dropWhile isSpaceChar) else none
  | [] => none

/-- A `\b` word boundary placed after a word character: the next character (if
any) must not be a word character. -/
def wordBoundAfter (s : List Char) : Bool :=
  match s with
  | [] => true
  | c :: _ => !isWordChar c

/-- `re.search` driver: try the position predicate `p` at every position of the
string, tracking whether the previous character is a word character (for the
leading `\b` of each pattern). -/
def searchAux (p : Bool → List Char → Bool) : Bool → List Char → Bool
  | _, [] => false
  | prev, c :: r => p prev (c :: r) || searchAux p (isWordChar c) r

/-! ### `TRANSCRIPT_ACTION_PATTERNS` (meeting_sync.py lines 37-52) -/

def verbsIll : List String :=
  ["send", "email", "share", "follow up", "reach out", "schedule", "set up",
   "finalize", "work on", "handle", "talk to", "ping", "create", "draft",
   "write", "build", "update", "put together", "coordinate", "own that"]

/-- `\bi'(?:ll|m going to|m gonna)\s+(?:send|...)` -/
def actIll (s : List Char) : Bool :=
  match dropPref "i'".toList s with
  | some r =>
      anyPrefThen ["ll", "m going to", "m gonna"]
        (fun r2 =>
          match skipWs1 r2 with
          | some r3 => anyPref verbsIll r3
          | none => false) r
  | none => false

def verbsINeed : List String :=
  ["send", "email", "share", "follow up", "reach out", "schedule", "set up",
   "finalize", "work on", "handle", "talk to", "figure out", "check", "get",
   "do", "run", "update"]

/-- `\bi need to\s+(?:send|...)` -/
def actINeed (s : List Char) : Bool :=
  match dropPref "i need to".toList s with
  | some r =>
      match skipWs1 r with
      | some r2 => anyPref verbsINeed r2
      | none => false
  | none => false

def verbsWeNeed : List String :=
  ["send", "email", "share", "follow up", "reach out", "schedule", "set up",
   "finalize", "work on", "handle", "figure out", "check", "get", "do",
   "rebalance", "reduce", "pick", "redesign", "negotiate"]

/-- `\bwe need to\s+(?:send|...)` -/
def actWeNeed (s : List Char) : Bool :=
  match dropPref "we need to".toList s with
  | some r =>
      match skipWs1 r with
      | some r2 => anyPref verbsWeNeed r2
      | none => false
  | none => false

def verbsCanYou : List String :=
  ["send", "email", "share", "follow up", "reach out", "schedule", "set up",
   "get us", "check", "do", "create", "draft", "handle", "research", "put"]

/-- `\bcan you\s+(?:send|...)` -/
def actCanYou (s : List Char) : Bool :=
  match dropPref "can you".toList s with
  | some r =>
      match skipWs1 r with
      | some r2 => anyPref verbsCanYou r2
      | none => false
  | none => false

def deadlineWords : List String :=
  ["end of day", "end of week", "monday", "tuesday", "wednesday", "thursday",
   "friday", "next week", "tomorrow", "tonight", "eod", "eow"]

/-- `\bby (?:end of (?:day|week)|monday|...|eow)\b` -/
def actDeadline (s : List Char) : Bool :=
  match dropPref "by ".toList s with
  | some r => anyPrefThen deadlineWords wordBoundAfter r
  | none => false

/-- `\baction item\b` -/
def actMarker (s : List Char) : Bool :=
  match dropPref "action item".toList s with
  | some r => wordBoundAfter r
  | none => false

/-- `\bnext step[s]?\s+(?:is|are|on|here|for)\b` -/
def actNextStep (s : List Char) : Bool :=
  match dropPref "next step".toList s with
  | some r =>
      let k := fun r2 =>
        match skipWs1 r2 with
        | some r3 => anyPrefThen ["is", "are", "on", "here", "for"] wordBoundAfter r3
        | none => false
      (match r with
       | 's' :: r2 => k r2
       | _ => false) || k r
  | none => false

/-- `\bfollow[- ]?up (?:with|on)\b` -/
def actFollowUp (s : List Char) : Bool :=
  match dropPref "follow".toList s with
  | some r =>
      let k := fun r2 =>
        match dropPref "up ".toList r2 with
        | some r3 => anyPrefThen ["with", "on"] wordBoundAfter r3
        | none => false
      (match r with
       | c :: r2 => (c = '-' || c = ' ') && k r2
       | [] => false) || k r
  | none => false

/-- One position of `TRANSCRIPT_ACTION_RE`: every branch starts with `\b`
followed by a word character, so a branch can match only where the previous
character is not a word character. -/
def actionAt (prevWord : Bool) (s : List Char) : Bool :=
  !prevWord &&
    (actIll s || actINeed s || actWeNeed s || actCanYou s || actDeadline s ||
     actMarker s || actNextStep s || actFollowUp s)

/-- `TRANSCRIPT_ACTION_RE.search(text)` (case-insensitive). -/
def actionSearch (s : String) : Bool :=
  searchAux actionAt false (lowerL s)

/-! ### `NOISE_PATTERNS` (meeting_sync.py lines 60-65) -/

/-- `\bi need to (?:run|go|hop|jump|leave|mute|drop)\b` -/
def noiseINeed (s : List Char) : Bool :=
  match dropPref "i need to ".toList s with
  | some r =>
      anyPrefThen ["run", "go", "hop", "jump", "leave", "mute", "drop"]
        wordBoundAfter r
  | none => false

/-- `\blet me (?:see|show|think|check|look|pull up|share my screen)\b` -/
def noiseLetMe (s : List Char) : Bool :=
  match dropPref "let me ".toList s with
  | some r =>
      anyPrefThen ["see", "show", "think", "check", "look", "pull up",
                   "share my screen"] wordBoundAfter r
  | none => false

/-- `\bi'(?:ll|m going to|m gonna) (?:be |try |just )` -/
def noiseIllBe (s : List Char) : Bool :=
  match dropPref "i'".toList s with
  | some r =>
      anyPrefThen ["ll", "m going to", "m gonna"]
        (fun r2 =>
          match r2 with
          | ' ' :: r3 => anyPref ["be ", "try ", "just "] r3
          | _ => false) r
  | none => false

/-- One position of `NOISE_PATTERNS`. -/
def noiseAt (prevWord : Bool) (s : List Char) : Bool :=
  !prevWord && (noiseINeed s || noiseLetMe s || noiseIllBe s)

/-- `NOISE_PATTERNS.search(text)` (case-insensitive). -/
def noiseSearch (s : String) : Bool :=
  searchAux noiseAt false (lowerL s)

/-! ### `FILLER_PATTERNS` (meeting_sync.py lines 55-58) -/

def fillerWords : List String :=
  ["yeah", "yep", "okay", "ok", "cool", "right", "sure", "mhm", "uh huh",
   "great", "alright", "thanks", "bye", "hello", "hi", "hey", "hmm", "huh",
   "wow", "oh"]

/-- The trailing character class `[.\s!?,]`. -/
def fillerTail (c : Char) : Bool :=
  c = '.' || isSpaceChar c || c = '!' || c = '?' || c = ','

/-- `FILLER_PATTERNS.match(text)`: the whole string is one of the filler words
followed only by characters of `[.\s!?,]` (the pattern is anchored with
`^...$`, and `$`-before-final-newline agrees with full coverage because `\n`
is in the trailing class). -/
def isFiller (s : String) : Bool :=
  let l := lowerL s
  fillerWords.any fun w =>
    match dropPref w.toList l with
    | some r => r.all fillerTail
    | none => false

/-- The per-utterance commitment classifier as used by the extraction loop
(meeting_sync.py lines 520-523): fillers are skipped, then a line is
actionable iff it matches the action patterns and not the noise patterns. -/
def isActionable (s : String) : Bool :=
  !isFiller s && (actionSearch s && !noiseSearch s)

/-! ### Transcript line parsing (meeting_sync.py lines 502-507) -/

/-- Python `str.strip()` (ASCII whitespace). -/
def pyStrip (l : List Char) : List Char :=
  ((l.dropWhile isSpaceChar).reverse.dropWhile isSpaceChar).reverse

def pyStripS (s : String) : String :=
  ⟨pyStrip s.toList⟩

/-- `re.sub(r'\s+', ' ', s)`: every maximal whitespace run becomes a single
space.  The flag records whether we are inside a run already replaced. -/
def collapseWsAux : Bool → List Char → List Char
  | _, [] => []
  | inRun, c :: r =>
    if isSpaceChar c then
      if inRun then collapseWsAux true r else ' ' :: collapseWsAux true r
    else c :: collapseWsAux false r

def collapseWs (s : String) : String :=
  ⟨collapseWsAux false s.toList⟩

/-- One parsed transcript line (`{"ts": ..., "speaker": ..., "text": ...}`,
the text already `.strip()`-ed as in the source). -/
structure TLine where
  ts : String
  speaker : String
  text : String
deriving DecidableEq, Repr

/-- `([^\]]+)\]`: the characters before the first `]` (which may include
newlines: the character class excludes only `]`), and the remainder after the
`]`; fails when there is no `]`.  Emptiness of the group is checked by the
caller. -/
def tsSplit : List Char → Option (List Char × List Char)
  | [] => none
  | c :: r =>
    if c = ']' then some ([], r)
    else (tsSplit r).map (fun p => (c :: p.1, p.2))

/-- `(\w+)\)`: the word characters up to the first non-word character, which
must be `)`; the remainder follows the `)`.  Emptiness of the group is checked
by the caller. -/
def spSplit : List Char → Option (List Char × List Char)
  | [] => none
  | c :: r =>
    if isWordChar c then (spSplit r).map (fun p => (c :: p.1, p.2))
    else if c = ')' then some ([], r) else none

/-- `\s*(.+)$` (with `.` not matching newlines, `$` at a line end): the greedy
`\s*` prefers skipping more whitespace (also across newlines) and backtracks
on failure; `.+` then runs to the next newline or the end.  Returns the
`.strip()`-ed group and the unconsumed remainder. -/
def textSplit : List Char → Option (List Char × List Char)
  | [] => none
  | c :: r =>
    if isSpaceChar c then
      match textSplit r with
      | some p => some p
      | none =>
        if c = '\n' then none
        else
          some (pyStrip (c :: r.takeWhile (fun d => d ≠ '\n')),
                r.drop (r.takeWhile (fun d => d ≠ '\n')).length)
    else
      some (pyStrip (c :: r.takeWhile (fun d => d ≠ '\n')),
            r.drop (r.takeWhile (fun d => d ≠ '\n')).length)

/-- One attempt of `re.finditer(r'^\[([^\]]+)\]\s*\((\w+)\)\s*(.+)$', ...,
re.MULTILINE)` at a `^` position: `[`, the non-empty timestamp group, `]`,
greedy whitespace, `(`, the non-empty speaker group, `)`, and the text group.
Returns the parsed line (text `.strip()`-ed as in the source) and the
unconsumed remainder. -/
def matchTLine (s : List Char) : Option (TLine × List Char) :=
  match s with
  | '[' :: r =>
    match tsSplit r with
    | some (ts, r2) =>
      if ts.isEmpty then none
      else
        match r2.dropWhile isSpaceChar with
        | '(' :: r4 =>
          match spSplit r4 with
          | some (sp, r6) =>
            if sp.isEmpty then none
            else
              match textSplit r6 with
              | some (t, rest) => some (⟨⟨ts⟩, ⟨sp⟩, ⟨t⟩⟩, rest)
              | none => none
          | none => none
        | _ => none
    | none => none
  | _ => none

/-- The `finditer` scan over the whole transcript text: `^` positions are the
start of the text and every position following a newline; a successful match
resumes scanning at its own end.  `fuel` bounds the recursion and is
instantiated with the length of the text, which suffices because every step
consumes at least one character. -/
def scanLines : Nat → Bool → List Char → List TLine
  | 0, _, _ => []
  | _ + 1, _, [] => []
  | fuel + 1, atStart, c :: r =>
    if atStart then
      match matchTLine (c :: r) with
      | some (tl, rest) => tl :: scanLines fuel false rest
      | none => scanLines fuel (c = '\n') r
    else scanLines fuel (c = '\n') r

def parseTranscriptLines (t : List Char) : List TLine :=
  scanLines t.length true t

/-! ### Locating the transcript section and the title
(meeting_sync.py lines 490-500) -/

/-- `re.search(r'## Transcript\n+(.*?)(?=\n## |\Z)', content, re.DOTALL)`,
part 1: find the first occurrence of `## Transcript` that is immediately
followed by a newline; return the remainder starting at that newline. -/
def findTransAux : List Char → Option (List Char)
  | [] => none
  | c :: r =>
    match dropPref "## Transcript".toList (c :: r) with
    | some rest =>
      match rest with
      | '\n' :: _ => some rest
      | _ => findTransAux r
    | none => findTransAux r

/-- Part 2: after the greedy `\n+`, the lazy `(.*?)` stops at the first
position where `\n## ` follows (the lookahead), or at the end of the text. -/
def takeUntilSectionBreak : List Char → List Char
  | [] => []
  | c :: r =>
    if (dropPref "\n## ".toList (c :: r)).isSome then []
    else c :: takeUntilSectionBreak r

/-- `[^"\n]+` (greedy, at least one character). -/
def titleRun (s : List Char) : Option (List Char) :=
  let t := s.takeWhile (fun c => c ≠ '"' && c ≠ '\n')
  if t.isEmpty then none else some t

/-- `"?([^"\n]+)` with the optional quote tried greedily first. -/
def titleAfterWs (s : List Char) : Option (List Char) :=
  match s with
  | '"' :: r => (titleRun r).orElse (fun _ => titleRun s)
  | _ => titleRun s

/-- `\s*"?([^"\n]+)`: the greedy `\s*` prefers consuming more whitespace and
backtracks one character at a time on failure. -/
def titleBody : List Char → Option (List Char)
  | [] => none
  | c :: r =>
    if isSpaceChar c then
      match titleBody r with
      | some t => some t
      | none => titleAfterWs (c :: r)
    else titleAfterWs (c :: r)

/-- `re.search(r'^title:\s*"?([^"\n]+)"?', content, re.MULTILINE)`: try the
anchored pattern at every line start. -/
def titleAt (s : List Char) : Option (List Char) :=
  match dropPref "title:".toList s with
  | some r => titleBody r
  | none => none

def findTitle : Bool → List Char → Option (List Char)
  | _, [] => none
  | atStart, c :: r =>
    if atStart then
      match titleAt (c :: r) with
      | some t => some t
      | none => findTitle (c = '\n') r
    else findTitle (c = '\n') r

/-! ### The extraction loop (meeting_sync.py lines 513-548) -/

/-- An action item before rendering: the tagged speaker of the originating
line and the normalized combined context text. -/
structure ActionItem where
  speaker : String
  text : String
deriving DecidableEq, Repr

/-- `f"({speaker}) {combined}"` as appended to the item list. -/
def renderItem (a : ActionItem) : String :=
  "(" ++ a.speaker ++ ") " ++ a.text

/-- Python character slicing `s[:n]`. -/
def takeChars (s : String) (n : Nat) : String :=
  ⟨s.toList.take n⟩

/-- `if len(combined) > 200: combined = combined[:200] + "..."`. -/
def truncate200 (s : String) : String :=
  if s.length > 200 then takeChars s 200 ++ "..." else s

/-- The context lookahead: up to two following lines are appended, stopping at
the first filler line (which is excluded). -/
def lookaheadParts (rest : List TLine) : List String :=
  match rest with
  | [] => []
  | l1 :: rest2 =>
    if isFiller l1.text then []
    else
      l1.text ::
        (match rest2 with
         | [] => []
         | l2 :: _ => if isFiller l2.text then [] else [l2.text])

/-- The combined context text of an actionable line: join with single spaces,
collapse whitespace runs, strip, truncate at 200 characters. -/
def combinedOf (l : TLine) (rest : List TLine) : String :=
  truncate200 (pyStripS (collapseWs (String.intercalate " " (l.text :: lookaheadParts rest))))

/-- `dedup_key = combined[:60].lower()`. -/
def dedupKeyOf (combined : String) : String :=
  ⟨(combined.toList.take 60).map Char.toLower⟩

/-- The extraction loop: walk the line list in order, carrying the set of seen
dedup keys; emit `(index, item)` for every line that passes the classifier,
the dedup check and the minimum-length check. -/
def extractLoopAux : List TLine → Nat → List String → List (Nat × ActionItem)
  | [], _, _ => []
  | l :: rest, idx, seen =>
    if isFiller l.text then extractLoopAux rest (idx + 1) seen
    else if actionSearch l.text && !noiseSearch l.text then
      if dedupKeyOf (combinedOf l rest) ∉ seen ∧ (combinedOf l rest).length > 10 then
        (idx, ⟨l.speaker, combinedOf l rest⟩) ::
          extractLoopAux rest (idx + 1) (dedupKeyOf (combinedOf l rest) :: seen)
      else extractLoopAux rest (idx + 1) seen
    else extractLoopAux rest (idx + 1) seen

/-- All items extracted from a parsed line list, tagged with the index of the
originating line. -/
def extractTagged (lines : List TLine) : List (Nat × ActionItem) :=
  extractLoopAux lines 0 []

/-- The title of the meeting file: the regex search, stripped, with the file
stem as fallback. -/
def extractTitle (stem content : String) : String :=
  match findTitle true content.toList with
  | some g => ⟨pyStrip g⟩
  | none => stem

/-- The matched transcript section text, `strip()`-ed: the greedy `\n+`
followed by the lazily captured group. -/
def transcriptBody (rest : List Char) : List Char :=
  pyStrip (takeUntilSectionBreak (rest.dropWhile (fun c => c = '\n')))

/-- The item list extracted from the transcript section text: the
unavailable-transcript sentinel and the absence of parseable lines both yield
an empty list. -/
def itemsOfTranscript (ttext : List Char) : List String :=
  if (dropPref "Transcript not available".toList ttext).isSome then []
  else if (parseTranscriptLines ttext).isEmpty then []
  else (extractTagged (parseTranscriptLines ttext)).map (fun p => renderItem p.2)

/-- The item list of a whole meeting file: empty when the transcript-section
regex does not match. -/
def extractedItems (content : String) : List String :=
  match findTransAux content.toList with
  | none => []
  | some rest => itemsOfTranscript (transcriptBody rest)

/-- `extract_action_items_from_file` (meeting_sync.py lines 486-548) as a
function of the file stem (the fallback title) and the file content. -/
def extract_action_items_from_file (stem content : String) : String × List String :=
  (extractTitle stem content, extractedItems content)

/-- "No internal whitespace run longer than one character": no two adjacent
whitespace characters. -/
def noWsRunGt1 : List Char → Bool
  | a :: b :: r => (!(isSpaceChar a && isSpaceChar b)) && noWsRunGt1 (b :: r)
  | _ => true

/-! ### Attribution partitioner (bot.py lines 39-61) -/

/-- One position of `\bkatie\b` (case-insensitive). -/
def katieAt (prevWord : Bool) (s : List Char) : Bool :=
  !prevWord &&
    (match dropPref "katie".toList s with
     | some r => wordBoundAfter r
     | none => false)

/-- `re.search(r'\bkatie\b', item, re.IGNORECASE)`. -/
def katieWordSearch (item : String) : Bool :=
  searchAux katieAt false (lowerL item)

/-- `item.startswith("(me)") or re.search(r'\bkatie\b', item, re.IGNORECASE)`
(bot.py line 52). -/
def isKatieItem (item : String) : Bool :=
  (dropPref "(me)".toList item.toList).isSome || katieWordSearch item

/-- One meeting's action-item group `{"title": ..., "items": [...]}`. -/
structure MeetingGroup where
  title : String
  items : List String
deriving DecidableEq, Repr

/-- `split_katie_items` (bot.py lines 39-61): per meeting, partition the items
by `isKatieItem`; a meeting contributes to an output list only when its part
is non-empty. -/
def split_katie_items : List MeetingGroup → List MeetingGroup × List MeetingGroup
  | [] => ([], [])
  | g :: rest =>
    ((if (g.items.filter isKatieItem).isEmpty then (split_katie_items rest).1
      else ⟨g.title, g.items.filter isKatieItem⟩ :: (split_katie_items rest).1),
     (if (g.items.filter (fun i => !isKatieItem i)).isEmpty then (split_katie_items rest).2
      else ⟨g.title, g.items.filter (fun i => !isKatieItem i)⟩ :: (split_katie_items rest).2))

/-- The owner predicate as the specification words it: the text starts with
the self-tag `"(me) "` - with a trailing space - or contains `katie` as a
whole word, case-insensitively. -/
def specOwnerPred (item : String) : Bool :=
  (dropPref "(me) ".toList item.toList).isSome || katieWordSearch item

/-- A transcript text presented as its physical lines, joined by newlines
(no trailing newline, matching a `strip()`-ed section text). -/
def joinNL : List String → List Char
  | [] => []
  | [l] => l.toList
  | l :: ls => l.toList ++ '\n' :: joinNL ls

/-- Decidable per-line hygiene for the line-skipping theorem: the line holds
no newline and, if it starts with `[`, it fully matches the line pattern on
its own with a non-empty text (so the match cannot spill into later lines). -/
def lineOk (l : String) : Bool :=
  if '\n' ∈ l.toList then false
  else if l.toList.head? = some '[' then
    match matchTLine l.toList with
    | some (tl, rest) => rest.isEmpty && !(tl.text == "")
    | none => false
  else true

/-! ### A model of the Python `json` module, as used for checkbox values
(bot.py).  Integer literals are modelled exactly; float literals (fractions,
exponents, `NaN`/`Infinity`) are kept opaque as their source text, which
suffices here because the reducer only ever compares the scalar `text` values
it stores in its checked set, and the system itself emits only integers and
strings.  Lone surrogate escapes are treated as parse failures. -/

/-- JSON values as `json.loads` produces them. -/
inductive Json where
  | null
  | bool (b : Bool)
  | num (n : Int)
  | fnum (lit : String)
  | str (s : String)
  | arr (xs : List Json)
  | obj (kvs : List (String × Json))
deriving Repr

/-- Python values the reducer can keep in its `checked_texts` set: only
hashable scalars (`set.add` of a dict or list raises `TypeError`). -/
inductive PyScalar where
  | null
  | bool (b : Bool)
  | num (n : Int)
  | fnum (lit : String)
  | str (s : String)
deriving DecidableEq, Repr

/-- The scalar view of a JSON value; `none` models unhashability. -/
def toScalar : Json → Option PyScalar
  | .null => some .null
  | .bool b => some (.bool b)
  | .num n => some (.num n)
  | .fnum l => some (.fnum l)
  | .str s => some (.str s)
  | .arr _ => none
  | .obj _ => none

/-- JSON whitespace. -/
def isJsonWs (c : Char) : Bool :=
  c = ' ' || c = '\t' || c = '\n' || c = '\r'

def hexVal (c : Char) : Option Nat :=
  if '0' ≤ c ∧ c ≤ '9' then some (c.toNat - '0'.toNat)
  else if 'a' ≤ c ∧ c ≤ 'f' then some (c.toNat - 'a'.toNat + 10)
  else if 'A' ≤ c ∧ c ≤ 'F' then some (c.toNat - 'A'.toNat + 10)
  else none

/-- The body of a JSON string literal after the opening quote: strict mode
(raw control characters are rejected), the standard escapes, and `\uXXXX`
with surrogate pairs combined. -/
def parseStrBody : List Char → Option (List Char × List Char)
  | [] => none
  | '"' :: r => some ([], r)
  | '\\' :: e :: r =>
    match e with
    | '"' => (parseStrBody r).map (fun p => ('"' :: p.1, p.2))
    | '\\' => (parseStrBody r).map (fun p => ('\\' :: p.1, p.2))
    | '/' => (parseStrBody r).map (fun p => ('/' :: p.1, p.2))
    | 'b' => (parseStrBody r).map (fun p => ('\x08' :: p.1, p.2))
    | 'f' => (parseStrBody r).map (fun p => ('\x0c' :: p.1, p.2))
    | 'n' => (parseStrBody r).map (fun p => ('\n' :: p.1, p.2))
    | 'r' => (parseStrBody r).map (fun p => ('\r' :: p.1, p.2))
    | 't' => (parseStrBody r).map (fun p => ('\t' :: p.1, p.2))
    | 'u' =>
      match r with
      | h1 :: h2 :: h3 :: h4 :: r2 =>
        match hexVal h1, hexVal h2, hexVal h3, hexVal h4 with
        | some a, some b, some c, some d =>
          if ((a * 16 + b) * 16 + c) * 16 + d < 0xD800 ∨
              0xDFFF < ((a * 16 + b) * 16 + c) * 16 + d then
            (parseStrBody r2).map
              (fun p => (Char.ofNat (((a * 16 + b) * 16 + c) * 16 + d) :: p.1, p.2))
          else if ((a * 16 + b) * 16 + c) * 16 + d ≤ 0xDBFF then
            match r2 with
            | '\\' :: 'u' :: g1 :: g2 :: g3 :: g4 :: r3 =>
              match hexVal g1, hexVal g2, hexVal g3, hexVal g4 with
              | some a2, some b2, some c2, some d2 =>
                if 0xDC00 ≤ ((a2 * 16 + b2) * 16 + c2) * 16 + d2 ∧
                    ((a2 * 16 + b2) * 16 + c2) * 16 + d2 ≤ 0xDFFF then
                  (parseStrBody r3).map
                    (fun p =>
                      (Char.ofNat (0x10000 +
                         (((a * 16 + b) * 16 + c) * 16 + d - 0xD800) * 0x400 +
                         (((a2 * 16 + b2) * 16 + c2) * 16 + d2 - 0xDC00)) :: p.1, p.2))
                else none
              | _, _, _, _ => none
            | _ => none
          else none
        | _, _, _, _ => none
      | _ => none
    | _ => none
  | c :: r =>
    if c.toNat < 0x20 then none
    else (parseStrBody r).map (fun p => (c :: p.1, p.2))

def digitsVal (ds : List Char) : Nat :=
  ds.foldl (fun a c => a * 10 + (c.toNat - '0'.toNat)) 0

/-- The optional fraction part `.digits`. -/
def parseFracOpt (s : List Char) : Option (List Char × List Char) :=
  match s with
  | '.' :: r =>
    if (r.takeWhile Char.isDigit).isEmpty then none
    else some ('.' :: r.takeWhile Char.isDigit, r.dropWhile Char.isDigit)
  | _ => some ([], s)

/-- The optional exponent part `[eE][+-]?digits`. -/
def parseExpOpt (s : List Char) : Option (List Char × List Char) :=
  match s with
  | c :: r =>
    if c = 'e' ∨ c = 'E' then
      match r with
      | s1 :: r2 =>
        if s1 = '+' ∨ s1 = '-' then
          if (r2.takeWhile Char.isDigit).isEmpty then none
          else some (c :: s1 :: r2.takeWhile Char.isDigit, r2.dropWhile Char.isDigit)
        else if (r.takeWhile Char.isDigit).isEmpty then none
        else some (c :: r.takeWhile Char.isDigit, r.dropWhile Char.isDigit)
      | [] => none
    else some ([], s)
  | [] => some ([], [])

/-- Integer digits followed by optional fraction/exponent: an exact `Int` when
there is neither, an opaque float literal otherwise. -/
def numTail (neg : Bool) (intDigits : List Char) (s : List Char) :
    Option (Json × List Char) :=
  match parseFracOpt s with
  | none => none
  | some (fr, s2) =>
    match parseExpOpt s2 with
    | none => none
    | some (ex, s3) =>
      if fr.isEmpty ∧ ex.isEmpty then
        some (.num (if neg then -(digitsVal intDigits : Int) else (digitsVal intDigits : Int)), s3)
      else
        some (.fnum ⟨(if neg then ['-'] else []) ++ intDigits ++ fr ++ ex⟩, s3)

/-- A JSON number after the optional minus sign: `0` or a nonzero-led digit
run (leading zeros are rejected, as in Python's json). -/
def parseNumBody (neg : Bool) (s : List Char) : Option (Json × List Char) :=
  match s with
  | '0' :: r =>
    match r.head? with
    | some c => if c.isDigit then none else numTail neg ['0'] r
    | none => numTail neg ['0'] []
  | c :: r =>
    if c.isDigit then numTail neg (c :: r.takeWhile Char.isDigit) (r.dropWhile Char.isDigit)
    else none
  | [] => none

mutual

/-- One JSON value, starting at a non-whitespace character.  The fuel bounds
the recursion into arrays and objects; every unit of fuel spent corresponds
to input consumed, so `2 * length + 2` always suffices. -/
def parseVal : Nat → List Char → Option (Json × List Char)
  | 0, _ => none
  | fuel + 1, s =>
    match s with
    | 'n' :: r => (dropPref "ull".toList r).map (fun r2 => (Json.null, r2))
    | 't' :: r => (dropPref "rue".toList r).map (fun r2 => (Json.bool true, r2))
    | 'f' :: r => (dropPref "alse".toList r).map (fun r2 => (Json.bool false, r2))
    | 'N' :: r => (dropPref "aN".toList r).map (fun r2 => (Json.fnum "NaN", r2))
    | 'I' :: r => (dropPref "nfinity".toList r).map (fun r2 => (Json.fnum "Infinity", r2))
    | '-' :: r =>
      match r with
      | 'I' :: r2 => (dropPref "nfinity".toList r2).map (fun r3 => (Json.fnum "-Infinity", r3))
      | _ => parseNumBody true r
    | '"' :: r => (parseStrBody r).map (fun p => (Json.str ⟨p.1⟩, p.2))
    | '[' :: r =>
      (match r.dropWhile isJsonWs with
       | ']' :: r2 => some (Json.arr [], r2)
       | r3 => (parseArrItems fuel r3).map (fun p => (Json.arr p.1, p.2)))
    | '{' :: r =>
      (match r.dropWhile isJsonWs with
       | '}' :: r2 => some (Json.obj [], r2)
       | r3 => (parseObjItems fuel r3).map (fun p => (Json.obj p.1, p.2)))
    | c :: r => if c.isDigit then parseNumBody false (c :: r) else none
    | [] => none

/-- A non-empty comma-separated list of array elements up to `]`. -/
def parseArrItems : Nat → List Char → Option (List Json × List Char)
  | 0, _ => none
  | fuel + 1, s =>
    match parseVal fuel s with
    | none => none
    | some (v, r) =>
      match r.dropWhile isJsonWs with
      | ',' :: r2 => (parseArrItems fuel (r2.dropWhile isJsonWs)).map (fun p => (v :: p.1, p.2))
      | ']' :: r2 => some ([v], r2)
      | _ => none

/-- A non-empty comma-separated list of object members up to `}`. -/
def parseObjItems : Nat → List Char → Option (List (String × Json) × List Char)
  | 0, _ => none
  | fuel + 1, s =>
    match s with
    | '"' :: r =>
      (match parseStrBody r with
       | none => none
       | some (k, r2) =>
         match r2.dropWhile isJsonWs with
         | ':' :: r3 =>
           (match parseVal fuel (r3.dropWhile isJsonWs) with
            | none => none
            | some (v, r4) =>
              match r4.dropWhile isJsonWs with
              | ',' :: r5 =>
                (parseObjItems fuel (r5.dropWhile isJsonWs)).map
                  (fun p => ((⟨k⟩, v) :: p.1, p.2))
              | '}' :: r5 => some ([(⟨k⟩, v)], r5)
              | _ => none)
         | _ => none)
    | _ => none

end

/-- `json.loads`: parse one value with surrounding whitespace; anything left
over is an error. -/
def loads (s : String) : Option Json :=
  match parseVal (2 * s.length + 2) (s.toList.dropWhile isJsonWs) with
  | some (v, rest) => if (rest.dropWhile isJsonWs).isEmpty then some v else none
  | none => none

/-- `d[k]` on a parsed JSON object: the value of the last binding of `k`
(duplicate keys: last wins, as in Python). -/
def jsonLookup (kvs : List (String × Json)) (k : String) : Option Json :=
  match kvs with
  | [] => none
  | (k2, v) :: rest =>
    match jsonLookup rest k with
    | some v2 => some v2
    | none => if k2 = k then some v else none

/-! ### `json.dumps` for the renderer's option values -/

def hexDigit (n : Nat) : Char :=
  if n < 10 then Char.ofNat ('0'.toNat + n) else Char.ofNat ('a'.toNat + n - 10)

/-- One character of a dumped JSON string: quote and backslash are escaped,
control characters become `\u00XX`. -/
def encodeJsonChar (c : Char) : List Char :=
  if c = '"' then ['\\', '"']
  else if c = '\\' then ['\\', '\\']
  else if c.toNat < 0x20 then
    ['\\', 'u', '0', '0', hexDigit (c.toNat / 16), hexDigit (c.toNat % 16)]
  else [c]

def encodeStr (s : String) : List Char :=
  (s.toList.map encodeJsonChar).flatten

def natDigitsAux : Nat → Nat → List Char
  | 0, _ => []
  | fuel + 1, n =>
    if n < 10 then [Char.ofNat ('0'.toNat + n)]
    else natDigitsAux fuel (n / 10) ++ [Char.ofNat ('0'.toNat + n % 10)]

/-- Decimal digits of a natural number. -/
def natDigits (n : Nat) : List Char :=
  natDigitsAux (n + 1) n

/-- `json.dumps({"m": m_idx, "i": i_idx, "text": item})` with Python's
default separators. -/
def dumpsMIT (m i : Nat) (text : String) : String :=
  ⟨"\x7b\"m\": ".toList ++ natDigits m ++ ", \"i\": ".toList ++ natDigits i ++
   ", \"text\": \"".toList ++ encodeStr text ++ "\"\x7d".toList⟩

/-! ### Slack Block Kit model (bot.py) -/

/-- A checkbox option dict `{"text": {"type": "mrkdwn", "text": ...},
"value": ...}`: the displayed text and the opaque value string. -/
structure Checkbox where
  text : String
  value : String
deriving DecidableEq, Repr

/-- A checkboxes element `{"type": "checkboxes", "action_id": ...,
"options": [...], "initial_options": [...]}` (an absent `initial_options`
key is the empty list, matching `.get("initial_options", [])`). -/
structure CheckboxElement where
  action_id : String
  options : List Checkbox
  initial_options : List Checkbox
deriving DecidableEq, Repr

/-- The block dicts the bot builds and walks.  `other` stands for any block
of a type the reducer does not recognize and keeps verbatim. -/
inductive Block where
  | header (text : String)
  | divider
  | section (block_id : Option String) (text : String)
  | actions (block_id : Option String) (elements : List CheckboxElement)
  | other (payload : String)
deriving DecidableEq, Repr

/-- `(block.get("block_id") or "").startswith("meeting_title_")`. -/
def isTitleBlockId (bid : Option String) : Bool :=
  (dropPref "meeting_title_".toList (bid.getD "").toList).isSome

/-- Python `title_text.strip("*")`: remove `*` from both ends. -/
def stripStars (s : String) : String :=
  ⟨((s.toList.dropWhile (fun c => c = '*')).reverse.dropWhile (fun c => c = '*')).reverse⟩

/-- The "group complete" marker text
`f"~{clean_title}~ — all done :white_check_mark:"`. -/
def doneTitleText (titleText : String) : String :=
  "~" ++ stripStars titleText ++ "~ — all done :white_check_mark:"

/-- `build_all_done_blocks` (bot.py lines 130-140); the current date string is
passed explicitly (the source reads `datetime.now()`). -/
def build_all_done_blocks (today : String) : List Block :=
  [Block.section none
    ("*All action items completed* — " ++ today ++ " :white_check_mark:")]

/-! ### The checklist reducer `rebuild_blocks_after_check`
(bot.py lines 187-287).  Uncaught Python exceptions are modelled by `none`:
`json.JSONDecodeError` and `KeyError` are caught only where the source has a
`try`, while `TypeError` (indexing a non-dict, hashing a dict) never is. -/

/-- One checked value (bot.py lines 189-195): `json.loads(val)` and
`parsed["text"]`, falling back to the literal string on `JSONDecodeError` or
`KeyError`; `some` of the scalar added to `checked_texts`, `none` for an
uncaught `TypeError`. -/
def checkedTextOf (val : String) : Option PyScalar :=
  match loads val with
  | none => some (.str val)
  | some (Json.obj kvs) =>
    match jsonLookup kvs "text" with
    | some t => toScalar t
    | none => some (.str val)
  | some _ => none

/-- The `checked_texts` set built from all checked values; `none` when any
value raises. -/
def buildChecked : List String → Option (List PyScalar)
  | [] => some []
  | v :: r =>
    match checkedTextOf v with
    | none => none
    | some t => (buildChecked r).map (fun cs => t :: cs)

/-- The first filtering pass over one option (bot.py lines 224-231): parse
failures fall back to comparing the raw value string; `some keep` or `none`
for a crash. -/
def filterPass1 (checked : List PyScalar) (o : Checkbox) : Option Bool :=
  match loads o.value with
  | none => some (!decide (PyScalar.str o.value ∈ checked))
  | some (Json.obj kvs) =>
    match jsonLookup kvs "text" with
    | some t =>
      match toScalar t with
      | some ts => some (!decide (ts ∈ checked))
      | none => none
    | none => some (!decide (PyScalar.str o.value ∈ checked))
  | some _ => none

/-- One option of `initial_options` (bot.py lines 233-239): add its decoded
text to the checked set; parse failures and a missing key are silently
passed over. -/
def initTextOf (o : Checkbox) : Option (Option PyScalar) :=
  match loads o.value with
  | none => some none
  | some (Json.obj kvs) =>
    match jsonLookup kvs "text" with
    | some t =>
      match toScalar t with
      | some ts => some (some ts)
      | none => none
    | none => some none
  | some _ => none

/-- Fold the `initial_options` loop over the checked set. -/
def addInits (checked : List PyScalar) : List Checkbox → Option (List PyScalar)
  | [] => some checked
  | o :: r =>
    match initTextOf o with
    | none => none
    | some none => addInits checked r
    | some (some t) => addInits (t :: checked) r

/-- The second filtering pass over one option (bot.py lines 240-243):
`json.loads(o["value"])["text"]` with no `try` around it - any failure
(including the `KeyError`) propagates. -/
def filterPass2Text (o : Checkbox) : Option PyScalar :=
  match loads o.value with
  | some (Json.obj kvs) =>
    match jsonLookup kvs "text" with
    | some t => toScalar t
    | none => none
  | _ => none

/-- A filtering loop that stops with `none` as soon as an element raises. -/
def optFilter (f : Checkbox → Option Bool) : List Checkbox → Option (List Checkbox)
  | [] => some []
  | o :: r =>
    match f o with
    | none => none
    | some true => (optFilter f r).map (fun l => o :: l)
    | some false => optFilter f r

/-- Both filtering passes and the `initial_options` additions for one actions
element; returns the remaining options and the updated checked set. -/
def processElement (checked : List PyScalar) (e : CheckboxElement) :
    Option (List Checkbox × List PyScalar) :=
  match optFilter (filterPass1 checked) e.options with
  | none => none
  | some rem1 =>
    match addInits checked e.initial_options with
    | none => none
    | some checked2 =>
      match optFilter (fun o =>
          (filterPass2Text o).map (fun ts => !decide (ts ∈ checked2))) rem1 with
      | none => none
      | some rem2 => some (rem2, checked2)

/-- The blocks one reduced group unit contributes, and the combined
`any_items_remaining` flag: fresh divider, then either the struck-through
completion marker or the title with a rebuilt single-element actions block
(its `initial_options` dropped, as `new_actions` only sets `elements`). -/
def emitGroup (bid : Option String) (txt : String) (abid : Option String)
    (e : CheckboxElement) (remaining : List Checkbox)
    (tailBlocks : List Block) (tailFlag : Bool) : List Block × Bool :=
  if remaining.isEmpty then
    (Block.divider :: Block.section none (doneTitleText txt) :: tailBlocks, tailFlag)
  else
    (Block.divider :: Block.section bid txt ::
       Block.actions abid [⟨e.action_id, remaining, []⟩] :: tailBlocks, true)

/-- `actions_block["elements"][0]` and its processing: `IndexError` on an
empty element list is `none`, otherwise the remaining options, the updated
checked set and the element itself. -/
def groupStep (checked : List PyScalar) (elems : List CheckboxElement) :
    Option (List Checkbox × List PyScalar × CheckboxElement) :=
  match elems with
  | [] => none
  | e :: _ => (processElement checked e).map (fun pr => (pr.1, pr.2, e))

/-- The block walk of `rebuild_blocks_after_check` (bot.py lines 197-282):
headers kept, dividers dropped and regenerated, recognized
title-plus-actions group units filtered (consuming a following divider),
a bare title kept behind a fresh divider, anything else kept verbatim.
Returns the rebuilt blocks and the `any_items_remaining` flag. -/
def rebuildLoop : List PyScalar → List Block → Option (List Block × Bool)
  | _, [] => some ([], false)
  | checked, Block.header t :: rest =>
    (rebuildLoop checked rest).map (fun p => (Block.header t :: p.1, p.2))
  | checked, Block.section bid txt :: rest =>
    if isTitleBlockId bid then
      match rest with
      | Block.actions abid elems :: Block.divider :: rest3 =>
        (match groupStep checked elems with
        | none => none
        | some (remaining, checked2, e) =>
          (rebuildLoop checked2 rest3).map
            (fun p => emitGroup bid txt abid e remaining p.1 p.2))
      | Block.actions abid elems :: rest2 =>
        (match groupStep checked elems with
        | none => none
        | some (remaining, checked2, e) =>
          (rebuildLoop checked2 rest2).map
            (fun p => emitGroup bid txt abid e remaining p.1 p.2))
      | other =>
        (rebuildLoop checked other).map
          (fun p => (Block.divider :: Block.section bid txt :: p.1, p.2))
    else
      (rebuildLoop checked rest).map (fun p => (Block.section bid txt :: p.1, p.2))
  | checked, Block.divider :: rest => rebuildLoop checked rest
  | checked, b :: rest => (rebuildLoop checked rest).map (fun p => (b :: p.1, p.2))

/-- `rebuild_blocks_after_check(existing_blocks, checked_values)`; the
current date string is passed explicitly for the all-done terminal block. -/
def rebuild_blocks_after_check (today : String) (existing_blocks : List Block)
    (checked_values : List String) : Option (List Block) :=
  match buildChecked checked_values with
  | none => none
  | some checked =>
    match rebuildLoop checked existing_blocks with
    | none => none
    | some (bs, remaining) =>
      if remaining then some bs else some (build_all_done_blocks today)

/-! ### The interactive renderer `build_interactive_blocks`
(bot.py lines 64-127) -/

def natStr (n : Nat) : String :=
  ⟨natDigits n⟩

/-- The checkbox options of one meeting, value-encoded with the overall group
index and item index. -/
def groupOptions (mIdx : Nat) (items : List String) : List Checkbox :=
  items.enum.map (fun p => ⟨p.2, dumpsMIT mIdx p.1 p.2⟩)

/-- The title block, optional actions block and trailing divider of one
meeting. -/
def groupBlocks (mIdx : Nat) (g : MeetingGroup) : List Block :=
  Block.section (some ("meeting_title_" ++ natStr mIdx)) ("*" ++ g.title ++ "*") ::
    (if (groupOptions mIdx g.items).isEmpty then [] else
      [Block.actions (some ("meeting_actions_" ++ natStr mIdx))
        [⟨"done_checkbox_" ++ natStr mIdx, groupOptions mIdx g.items, []⟩]]) ++
    [Block.divider]

/-- `build_interactive_blocks(action_items_by_meeting)`: header, the
owner/other labels, then every group (owner groups first); the current date
string is passed explicitly. -/
def build_interactive_blocks (today : String) (gs : List MeetingGroup) : List Block :=
  [Block.header ("Action Items — " ++ today), Block.divider] ++
    (if (split_katie_items gs).1.isEmpty then [] else
      [Block.section none "*Your action items:*"]) ++
    (if (split_katie_items gs).2.isEmpty then [] else
      if (split_katie_items gs).1.isEmpty then [] else
        [Block.divider, Block.section none "*Other action items:*"]) ++
    (((split_katie_items gs).1 ++ (split_katie_items gs).2).enum.map
      (fun p => groupBlocks p.1 p.2)).flatten

/-- The utterance text at position `idx` of the parsed line list. -/
def textAt (lines : List TLine) (idx : Nat) : String :=
  match lines.drop idx with
  | [] => ""
  | l :: _ => l.text

/-- The speaker at position `idx`. -/
def speakerAt (lines : List TLine) (idx : Nat) : String :=
  match lines.drop idx with
  | [] => ""
  | l :: _ => l.speaker

/-- The combined context text the loop would build at position `idx`. -/
def combinedAt (lines : List TLine) (idx : Nat) : String :=
  match lines.drop idx with
  | [] => ""
  | l :: rest => combinedOf l rest

/-- The dedup key at position `idx`. -/
def keyAt (lines : List TLine) (idx : Nat) : String :=
  dedupKeyOf (combinedAt lines idx)

/-! ### A derived one-pass description of the reducer walk, used to state and
relate the reduction properties -/

/-- The decoded texts the `initial_options` loop (bot.py lines 233-239) adds
to the checked set, in list order. -/
def initScalars (l : List Checkbox) : List PyScalar :=
  l.filterMap (fun o =>
    match initTextOf o with
    | some (some t) => some t
    | _ => none)

/-- An option value as the renderer writes it: a JSON object whose `"text"`
member decodes to the option's own display text. -/
def OptionNice (o : Checkbox) : Prop :=
  ∃ kvs, loads o.value = some (Json.obj kvs) ∧
    jsonLookup kvs "text" = some (Json.str o.text)

/-- The block shapes the renderer and the reducer produce: headers, dividers,
unrecognized blocks, sections whose id is not a meeting-title id, and
title-plus-actions group units carrying one checkboxes element with a
non-empty renderer-encoded option list and decodable `initial_options`. -/
inductive NiceBlocks : List Block → Prop
  | nil : NiceBlocks []
  | header (t : String) (rest : List Block) :
      NiceBlocks rest → NiceBlocks (Block.header t :: rest)
  | divider (rest : List Block) :
      NiceBlocks rest → NiceBlocks (Block.divider :: rest)
  | plain (bid : Option String) (txt : String) (rest : List Block) :
      isTitleBlockId bid = false → NiceBlocks rest →
      NiceBlocks (Block.section bid txt :: rest)
  | other (p : String) (rest : List Block) :
      NiceBlocks rest → NiceBlocks (Block.other p :: rest)
  | group (bid : Option String) (txt : String) (abid : Option String)
      (aid : String) (opts inits : List Checkbox) (rest : List Block) :
      isTitleBlockId bid = true →
      opts ≠ [] →
      (∀ o ∈ opts, OptionNice o) →
      (∀ o ∈ inits, initTextOf o ≠ none) →
      NiceBlocks rest →
      NiceBlocks (Block.section bid txt ::
        Block.actions abid [⟨aid, opts, inits⟩] :: rest)

/-- No actions element carries `initial_options` (true of freshly rendered
checklists and of every reducer output, whose rebuilt elements only set
`options`). -/
def NoInitBlocks (B : List Block) : Prop :=
  ∀ abid elems, Block.actions abid elems ∈ B → ∀ e ∈ elems, e.initial_options = []

/-- The one-pass specification of the reducer walk: per group unit a single
filter of the options by the decoded text against the checked set extended
with the group's own `initial_options` texts. -/
def reduceSpecLoop : List PyScalar → List Block → List Block × Bool
  | _, [] => ([], false)
  | checked, Block.header t :: rest =>
    (Block.header t :: (reduceSpecLoop checked rest).1, (reduceSpecLoop checked rest).2)
  | checked, Block.section bid txt :: rest =>
    if isTitleBlockId bid then
      match rest with
      | Block.actions abid elems :: Block.divider :: rest3 =>
        (match elems with
        | [] => ([], false)
        | e :: _ =>
          emitGroup bid txt abid e
            (e.options.filter (fun o => !decide (PyScalar.str o.text ∈
              (initScalars e.initial_options).reverse ++ checked)))
            (reduceSpecLoop ((initScalars e.initial_options).reverse ++ checked) rest3).1
            (reduceSpecLoop ((initScalars e.initial_options).reverse ++ checked) rest3).2)
      | Block.actions abid elems :: rest2 =>
        (match elems with
        | [] => ([], false)
        | e :: _ =>
          emitGroup bid txt abid e
            (e.options.filter (fun o => !decide (PyScalar.str o.text ∈
              (initScalars e.initial_options).reverse ++ checked)))
            (reduceSpecLoop ((initScalars e.initial_options).reverse ++ checked) rest2).1
            (reduceSpecLoop ((initScalars e.initial_options).reverse ++ checked) rest2).2)
      | other =>
        (Block.divider :: Block.section bid txt :: (reduceSpecLoop checked other).1,
          (reduceSpecLoop checked other).2)
    else
      (Block.section bid txt :: (reduceSpecLoop checked rest).1,
        (reduceSpecLoop checked rest).2)
  | checked, Block.divider :: rest => reduceSpecLoop checked rest
  | checked, b :: rest =>
    (b :: (reduceSpecLoop checked rest).1, (reduceSpecLoop checked rest).2)

/-- Every checkbox option reachable in a block list, in order. -/
def blocksOptions (bs : List Block) : List Checkbox :=
  (bs.map (fun b =>
    match b with
    | Block.actions _ elems => (elems.map (fun e => e.options)).flatten
    | _ => [])).flatten

/-! ## Theorems -/

theorem strLen_mk (l : List Char) : (String.mk l).length = l.length := rfl

theorem strApp_mk (a b : List Char) :
    (String.mk a ++ String.mk b) = String.mk (a ++ b) := rfl

theorem toList_mk (l : List Char) : (String.mk l).toList = l := rfl

theorem noWs_tail {a : Char} {l : List Char}
    (h : noWsRunGt1 (a :: l) = true) : noWsRunGt1 l = true := by
  cases l with
  | nil => rfl
  | cons b r =>
    simp only [noWsRunGt1, Bool.and_eq_true] at h
    exact h.2

theorem noWs_append_left {l₁ l₂ : List Char}
    (h : noWsRunGt1 (l₁ ++ l₂) = true) : noWsRunGt1 l₁ = true := by
  induction l₁ with
  | nil => rfl
  | cons a t ih =>
    cases t with
    | nil => rfl
    | cons b r =>
      simp only [List.cons_append, noWsRunGt1, Bool.and_eq_true] at h ⊢
      exact ⟨h.1, by simpa using ih (by simpa using h.2)⟩

theorem noWs_append_right {l₁ l₂ : List Char}
    (h : noWsRunGt1 (l₁ ++ l₂) = true) : noWsRunGt1 l₂ = true := by
  induction l₁ with
  | nil => exact h
  | cons a t ih => exact ih (noWs_tail (by simpa using h))

theorem noWs_of_pref {l₁ l₂ : List Char} (hp : l₁ <+: l₂)
    (h : noWsRunGt1 l₂ = true) : noWsRunGt1 l₁ = true := by
  obtain ⟨t, rfl⟩ := hp
  exact noWs_append_left h

theorem noWs_of_suffix {l₁ l₂ : List Char} (hp : l₁ <:+ l₂)
    (h : noWsRunGt1 l₂ = true) : noWsRunGt1 l₁ = true := by
  obtain ⟨t, rfl⟩ := hp
  exact noWs_append_right h

theorem collapse_true_head :
    ∀ (l : List Char) (b : Char) (r : List Char),
      collapseWsAux true l = b :: r → isSpaceChar b = false := by
  intro l
  induction l with
  | nil => intro b r h; simp [collapseWsAux] at h
  | cons c t ih =>
    intro b r h
    by_cases hc : isSpaceChar c = true
    · simp only [collapseWsAux, hc, if_true] at h
      exact ih b r h
    · simp only [collapseWsAux, hc, if_false, Bool.not_eq_true] at h
      rw [Bool.not_eq_true] at hc
      cases h
      · simpa using hc

theorem collapse_noWs : ∀ (l : List Char) (b : Bool),
    noWsRunGt1 (collapseWsAux b l) = true := by
  intro l
  induction l with
  | nil => intro b; rfl
  | cons c t ih =>
    intro b
    by_cases hc : isSpaceChar c = true
    · cases b with
      | true => simpa [collapseWsAux, hc] using ih true
      | false =>
        simp only [collapseWsAux, hc, if_true]
        cases hx : collapseWsAux true t with
        | nil => rfl
        | cons y ys =>
          have hy := collapse_true_head t y ys hx
          have := ih true
          rw [hx] at this
          simp [noWsRunGt1, hy, this]
    · simp only [collapseWsAux, hc, if_false]
      cases hx : collapseWsAux false t with
      | nil => rfl
      | cons y ys =>
        have := ih false
        rw [hx] at this
        have hc' : isSpaceChar c = false := Bool.eq_false_iff.mpr hc
        simp [noWsRunGt1, hc', this]

theorem noWs_append_dots {l : List Char} (h : noWsRunGt1 l = true) :
    noWsRunGt1 (l ++ ['.', '.', '.']) = true := by
  induction l with
  | nil => decide
  | cons a t ih =>
    cases t with
    | nil =>
      show noWsRunGt1 (a :: ['.', '.', '.']) = true
      have : isSpaceChar '.' = false := by decide
      simp [noWsRunGt1, this]
    | cons b r =>
      simp only [noWsRunGt1, Bool.and_eq_true] at h
      have := ih h.2
      simp only [List.cons_append, noWsRunGt1, Bool.and_eq_true] at this ⊢
      exact ⟨h.1, this⟩

theorem pyStrip_eq (l : List Char) :
    pyStrip l = List.rdropWhile isSpaceChar (List.dropWhile isSpaceChar l) := rfl

theorem pyStrip_infix (l : List Char) : pyStrip l <:+: l := by
  rw [pyStrip_eq]
  exact (List.rdropWhile_prefix _ _).isInfix.trans (List.dropWhile_suffix _).isInfix

theorem noWs_pyStrip {l : List Char} (h : noWsRunGt1 l = true) :
    noWsRunGt1 (pyStrip l) = true := by
  rw [pyStrip_eq]
  exact noWs_of_pref (List.rdropWhile_prefix _ _)
    (noWs_of_suffix (List.dropWhile_suffix _) h)

theorem truncate200_length (s : String) : (truncate200 s).length ≤ 203 := by
  unfold truncate200
  by_cases h : s.length > 200
  · simp only [h, if_true]
    cases s with
    | mk l =>
      show (String.mk (l.take 200) ++ String.mk ['.', '.', '.']).length ≤ 203
      rw [strApp_mk, strLen_mk, List.length_append]
      have h1 : (l.take 200).length ≤ 200 := by
        simpa using List.length_take_le 200 l
      have h2 : (['.', '.', '.'] : List Char).length = 3 := rfl
      omega
  · simp only [h, if_false]
    omega

theorem truncate200_noWs {s : String} (h : noWsRunGt1 s.toList = true) :
    noWsRunGt1 (truncate200 s).toList = true := by
  unfold truncate200
  by_cases hl : s.length > 200
  · simp only [hl, if_true]
    cases s with
    | mk l =>
      show noWsRunGt1 ((String.mk (l.take 200) ++ String.mk ['.', '.', '.']).toList) = true
      rw [strApp_mk, toList_mk]
      exact noWs_append_dots (noWs_of_pref (List.take_prefix 200 l) h)
  · simpa [hl] using h

theorem combinedOf_noWs (l : TLine) (rest : List TLine) :
    noWsRunGt1 (combinedOf l rest).toList = true := by
  unfold combinedOf
  exact truncate200_noWs (by

    show noWsRunGt1 (pyStrip (collapseWs _).toList) = true
    exact noWs_pyStrip (collapse_noWs _ false))

theorem combinedOf_length (l : TLine) (rest : List TLine) :
    (combinedOf l rest).length ≤ 203 :=
  truncate200_length _

theorem extractLoopAux_text :
    ∀ (lines : List TLine) (idx : Nat) (seen : List String)
      (p : Nat × ActionItem), p ∈ extractLoopAux lines idx seen →
      ∃ (l : TLine) (rest : List TLine), p.2 = ⟨l.speaker, combinedOf l rest⟩ := by
  intro lines
  induction lines with
  | nil => intro idx seen p h; simp [extractLoopAux] at h
  | cons l rest ih =>
    intro idx seen p h
    unfold extractLoopAux at h
    split at h
    · exact ih _ _ _ h
    · split at h
      · split at h
        · rcases List.mem_cons.mp h with h1 | h1
          · exact ⟨l, rest, by rw [h1]⟩
          · exact ih _ _ _ h1
        · exact ih _ _ _ h
      · exact ih _ _ _ h

/-- C7: every action item returned by extraction is the rendering of an item
whose combined text has length at most 203 characters (200 plus the `...`
truncation suffix) and contains no internal whitespace run longer than one
character. -/
theorem extraction_item_text_bounds :
    ∀ stem content : String, ∀ s ∈ (extract_action_items_from_file stem content).2,
      ∃ a : ActionItem, s = renderItem a ∧ a.text.length ≤ 203 ∧
        noWsRunGt1 a.text.toList = true := by
  intro stem content s hs
  have hs2 : s ∈ extractedItems content := hs
  unfold extractedItems at hs2
  split at hs2
  · simp at hs2
  · unfold itemsOfTranscript at hs2
    split at hs2
    · simp at hs2
    · split at hs2
      · simp at hs2
      · simp only [List.mem_map] at hs2
        obtain ⟨p, hp, rfl⟩ := hs2
        obtain ⟨l, rest, htext⟩ := extractLoopAux_text _ _ _ _ hp
        refine ⟨p.2, rfl, ?_, ?_⟩
        · rw [htext]; exact combinedOf_length l rest
        · rw [htext]; exact combinedOf_noWs l rest

/-- Witness for C7 at a concrete transcript. -/
theorem extraction_item_text_bounds_witness :
    "(me) I'll send the doc tomorrow" ∈
      (extract_action_items_from_file "s"
        "## Transcript\n\n[1] (me) I'll send the doc tomorrow\n").2 ∧
    ∃ a : ActionItem, "(me) I'll send the doc tomorrow" = renderItem a ∧
      a.text.length ≤ 203 ∧ noWsRunGt1 a.text.toList = true :=
  ⟨by decide,
   extraction_item_text_bounds "s"
     "## Transcript\n\n[1] (me) I'll send the doc tomorrow\n"
     "(me) I'll send the doc tomorrow" (by decide)⟩

/-- C1: the commitment classifier first suppresses full-string filler matches,
then declares an utterance actionable iff it matches the commitment signal
patterns and does not match the noise override patterns; on the spec's
examples it answers actionable / not actionable / not actionable. -/
theorem commitment_classifier_policy :
    (∀ s : String, isFiller s = true → isActionable s = false) ∧
    (∀ s : String, isFiller s = false →
      (isActionable s = true ↔ actionSearch s = true ∧ noiseSearch s = false)) ∧
    isActionable "I'll send the proposal by Friday" = true ∧
    isActionable "I need to run to another meeting" = false ∧
    isActionable "yeah okay" = false := by
  refine ⟨?_, ?_, by decide, by decide, by decide⟩
  · intro s h
    simp [isActionable, h]
  · intro s h
    simp [isActionable, h, Bool.and_eq_true, Bool.not_eq_true']

/-- Witness for C1: a pure filler utterance is rejected by the filler rule. -/
theorem commitment_classifier_policy_witness :
    isFiller "Okay." = true ∧ isActionable "Okay." = false :=
  ⟨by decide, commitment_classifier_policy.1 "Okay." (by decide)⟩

theorem isActionable_iff {s : String} :
    isActionable s = true ↔
      isFiller s = false ∧ (actionSearch s && !noiseSearch s) = true := by
  simp [isActionable, Bool.and_eq_true, Bool.not_eq_true']

theorem dropAt_text {lines : List TLine} {l : TLine} {rest : List TLine} {idx : Nat}
    (h : lines.drop idx = l :: rest) : textAt lines idx = l.text := by
  simp [textAt, h]

theorem dropAt_speaker {lines : List TLine} {l : TLine} {rest : List TLine} {idx : Nat}
    (h : lines.drop idx = l :: rest) : speakerAt lines idx = l.speaker := by
  simp [speakerAt, h]

theorem dropAt_combined {lines : List TLine} {l : TLine} {rest : List TLine} {idx : Nat}
    (h : lines.drop idx = l :: rest) : combinedAt lines idx = combinedOf l rest := by
  simp [combinedAt, h]

theorem dropAt_key {lines : List TLine} {l : TLine} {rest : List TLine} {idx : Nat}
    (h : lines.drop idx = l :: rest) :
    keyAt lines idx = dedupKeyOf (combinedOf l rest) := by
  simp [keyAt, dropAt_combined h]

theorem drop_lt_length {lines : List TLine} {idx : Nat} {l : TLine} {rest : List TLine}
    (h : lines.drop idx = l :: rest) : idx < lines.length := by
  by_contra hc
  push_neg at hc
  rw [List.drop_eq_nil_of_le hc] at h
  simp at h

theorem drop_next {lines : List TLine} {idx : Nat} {l : TLine} {rest : List TLine}
    (h : lines.drop idx = l :: rest) : lines.drop (idx + 1) = rest := by
  rw [← List.tail_drop, h]
  rfl

/-- Every emitted entry is the item the loop builds at its own line index:
actionable line, combined text, length above the minimum, key unseen at entry
to the pass. -/
theorem extractLoop_mem_char :
    ∀ (ls lines : List TLine) (idx : Nat) (seen : List String),
      lines.drop idx = ls →
      ∀ p ∈ extractLoopAux ls idx seen,
        idx ≤ p.1 ∧ p.1 < lines.length ∧
        isActionable (textAt lines p.1) = true ∧
        p.2 = ⟨speakerAt lines p.1, combinedAt lines p.1⟩ ∧
        (combinedAt lines p.1).length > 10 ∧
        keyAt lines p.1 ∉ seen := by
  intro ls
  induction ls with
  | nil => intro lines idx seen hdrop p hp; simp [extractLoopAux] at hp
  | cons l rest ih =>
    intro lines idx seen hdrop p hp
    have hnext : lines.drop (idx + 1) = rest := drop_next hdrop
    unfold extractLoopAux at hp
    split at hp
    case isTrue hf =>
      have h := ih lines (idx + 1) seen hnext p hp
      exact ⟨Nat.le_trans (Nat.le_succ idx) h.1, h.2⟩
    case isFalse hf =>
      split at hp
      case isTrue ha =>
        split at hp
        case isTrue hcond =>
          rcases List.mem_cons.mp hp with h1 | h1
          · subst h1
            refine ⟨Nat.le_refl idx, drop_lt_length hdrop, ?_, ?_, ?_, ?_⟩
            · rw [dropAt_text hdrop]
              exact isActionable_iff.mpr ⟨Bool.eq_false_iff.mpr hf, ha⟩
            · rw [dropAt_speaker hdrop, dropAt_combined hdrop]
            · rw [dropAt_combined hdrop]
              exact hcond.2
            · rw [dropAt_key hdrop]
              exact hcond.1
          · have h := ih lines (idx + 1) (dedupKeyOf (combinedOf l rest) :: seen) hnext p h1
            exact ⟨Nat.le_trans (Nat.le_succ idx) h.1, h.2.1, h.2.2.1, h.2.2.2.1,
              h.2.2.2.2.1, fun hm => h.2.2.2.2.2 (List.mem_cons_of_mem _ hm)⟩
        case isFalse hcond =>
          have h := ih lines (idx + 1) seen hnext p hp
          exact ⟨Nat.le_trans (Nat.le_succ idx) h.1, h.2⟩
      case isFalse ha =>
        have h := ih lines (idx + 1) seen hnext p hp
        exact ⟨Nat.le_trans (Nat.le_succ idx) h.1, h.2⟩

/-- Distinct emitted entries have distinct dedup keys. -/
theorem extractLoop_keys_distinct :
    ∀ (ls lines : List TLine) (idx : Nat) (seen : List String),
      lines.drop idx = ls →
      ∀ p ∈ extractLoopAux ls idx seen, ∀ q ∈ extractLoopAux ls idx seen,
        p.1 ≠ q.1 → keyAt lines p.1 ≠ keyAt lines q.1 := by
  intro ls
  induction ls with
  | nil => intro lines idx seen hdrop p hp; simp [extractLoopAux] at hp
  | cons l rest ih =>
    intro lines idx seen hdrop p hp q hq hne
    have hnext : lines.drop (idx + 1) = rest := drop_next hdrop
    unfold extractLoopAux at hp hq
    split at hp
    case isTrue hf =>
      rw [if_pos hf] at hq
      exact ih lines (idx + 1) seen hnext p hp q hq hne
    case isFalse hf =>
      rw [if_neg hf] at hq
      split at hp
      case isTrue ha =>
        rw [if_pos ha] at hq
        split at hp
        case isTrue hcond =>
          rw [if_pos hcond] at hq
          rcases List.mem_cons.mp hp with h1 | h1 <;> rcases List.mem_cons.mp hq with h2 | h2
          · exact absurd (by rw [h1, h2]) hne
          · subst h1
            have hq2 := extractLoop_mem_char rest lines (idx + 1)
              (dedupKeyOf (combinedOf l rest) :: seen) hnext q h2
            have : keyAt lines q.1 ≠ dedupKeyOf (combinedOf l rest) :=
              fun he => hq2.2.2.2.2.2 (he ▸ List.mem_cons_self _ _)
            rw [dropAt_key hdrop]
            exact fun he => this he.symm
          · subst h2
            have hp2 := extractLoop_mem_char rest lines (idx + 1)
              (dedupKeyOf (combinedOf l rest) :: seen) hnext p h1
            have : keyAt lines p.1 ≠ dedupKeyOf (combinedOf l rest) :=
              fun he => hp2.2.2.2.2.2 (he ▸ List.mem_cons_self _ _)
            rw [dropAt_key hdrop]
            exact this
          · exact ih lines (idx + 1) (dedupKeyOf (combinedOf l rest) :: seen) hnext p h1 q h2 hne
        case isFalse hcond =>
          rw [if_neg hcond] at hq
          exact ih lines (idx + 1) seen hnext p hp q hq hne
      case isFalse ha =>
        rw [if_neg ha] at hq
        exact ih lines (idx + 1) seen hnext p hp q hq hne

/-- First occurrence wins: a later line whose key equals the key of an earlier
actionable, long-enough line never contributes an entry. -/
theorem extractLoop_first_wins :
    ∀ (ls lines : List TLine) (idx : Nat) (seen : List String),
      lines.drop idx = ls →
      ∀ i j, idx ≤ i → i < j →
        isActionable (textAt lines i) = true →
        (combinedAt lines i).length > 10 →
        keyAt lines i = keyAt lines j →
        ∀ b, (j, b) ∉ extractLoopAux ls idx seen := by
  intro ls
  induction ls with
  | nil => intro lines idx seen hdrop i j hi hij hact hlen hkey b hb; simp [extractLoopAux] at hb
  | cons l rest ih =>
    intro lines idx seen hdrop i j hi hij hact hlen hkey b hb
    have hnext : lines.drop (idx + 1) = rest := drop_next hdrop
    unfold extractLoopAux at hb
    split at hb
    case isTrue hf =>
      rcases Nat.eq_or_lt_of_le hi with hieq | hilt
      · rw [← hieq, dropAt_text hdrop] at hact
        rw [(isActionable_iff.mp hact).1] at hf
        exact Bool.false_ne_true hf
      · exact ih lines (idx + 1) seen hnext i j hilt hij hact hlen hkey b hb
    case isFalse hf =>
      split at hb
      case isTrue ha =>
        split at hb
        case isTrue hcond =>
          have hjne : j ≠ idx := by omega
          rcases List.mem_cons.mp hb with h1 | h1
          · exact hjne (congrArg Prod.fst h1)
          · rcases Nat.eq_or_lt_of_le hi with hieq | hilt
            · have hm := extractLoop_mem_char rest lines (idx + 1)
                (dedupKeyOf (combinedOf l rest) :: seen) hnext (j, b) h1
              apply hm.2.2.2.2.2
              show keyAt lines j ∈ _
              rw [← hkey, ← hieq, dropAt_key hdrop]
              exact List.mem_cons_self _ _
            · exact ih lines (idx + 1) (dedupKeyOf (combinedOf l rest) :: seen) hnext
                i j hilt hij hact hlen hkey b h1
        case isFalse hcond =>
          rcases Nat.eq_or_lt_of_le hi with hieq | hilt
          · have hkin : dedupKeyOf (combinedOf l rest) ∈ seen := by
              by_contra hnin
              apply hcond
              refine ⟨hnin, ?_⟩
              rw [← dropAt_combined hdrop, hieq]
              exact hlen
            have hm := extractLoop_mem_char rest lines (idx + 1) seen hnext (j, b) hb
            apply hm.2.2.2.2.2
            show keyAt lines j ∈ seen
            rw [← hkey, ← hieq, dropAt_key hdrop]
            exact hkin
          · exact ih lines (idx + 1) seen hnext i j hilt hij hact hlen hkey b hb
      case isFalse ha =>
        rcases Nat.eq_or_lt_of_le hi with hieq | hilt
        · rw [← hieq, dropAt_text hdrop] at hact
          exact ha (isActionable_iff.mp hact).2
        · exact ih lines (idx + 1) seen hnext i j hilt hij hact hlen hkey b hb

/-- Completeness: an actionable, long-enough line whose key is neither in the
carried seen set nor claimed by an earlier emitted entry does emit. -/
theorem extractLoop_complete :
    ∀ (ls lines : List TLine) (idx : Nat) (seen : List String),
      lines.drop idx = ls →
      ∀ i, idx ≤ i → i < lines.length →
        isActionable (textAt lines i) = true →
        (combinedAt lines i).length > 10 →
        keyAt lines i ∉ seen →
        (∀ j b, (j, b) ∈ extractLoopAux ls idx seen → j < i →
          keyAt lines j ≠ keyAt lines i) →
        ∃ a, (i, a) ∈ extractLoopAux ls idx seen := by
  intro ls
  induction ls with
  | nil =>
    intro lines idx seen hdrop i hi hilen hact hlen hseen hblock
    have : lines.length ≤ idx := List.drop_eq_nil_iff.mp hdrop
    omega
  | cons l rest ih =>
    intro lines idx seen hdrop i hi hilen hact hlen hseen hblock
    have hnext : lines.drop (idx + 1) = rest := drop_next hdrop
    rcases Nat.eq_or_lt_of_le hi with hieq | hilt
    · -- the current position is the target line
      subst hieq
      rw [dropAt_text hdrop] at hact
      have hff := (isActionable_iff.mp hact).1
      have haa := (isActionable_iff.mp hact).2
      refine ⟨⟨l.speaker, combinedOf l rest⟩, ?_⟩
      unfold extractLoopAux
      rw [if_neg (by rw [hff]; exact Bool.false_ne_true), if_pos haa, if_pos ?_]
      · exact List.mem_cons_self _ _
      · constructor
        · rw [← dropAt_key hdrop]; exact hseen
        · rw [← dropAt_combined hdrop]; exact hlen
    · -- the target is further on
      unfold extractLoopAux
      split
      case isTrue hf =>
        exact ih lines (idx + 1) seen hnext i hilt hilen hact hlen hseen
          (fun j b hjb => hblock j b (by
            unfold extractLoopAux
            rw [if_pos hf]
            exact hjb))
      case isFalse hf =>
        split
        case isTrue ha =>
          by_cases hcond :
              dedupKeyOf (combinedOf l rest) ∉ seen ∧ (combinedOf l rest).length > 10
          · rw [if_pos hcond]
            have hknei : keyAt lines idx ≠ keyAt lines i := by
              apply hblock idx ⟨l.speaker, combinedOf l rest⟩ _ hilt
              unfold extractLoopAux
              rw [if_neg hf, if_pos ha, if_pos hcond]
              exact List.mem_cons_self _ _
            have hseen2 : keyAt lines i ∉ dedupKeyOf (combinedOf l rest) :: seen := by
              intro hm
              rcases List.mem_cons.mp hm with hm1 | hm1
              · exact hknei (by rw [dropAt_key hdrop, hm1])
              · exact hseen hm1
            obtain ⟨a, ha2⟩ := ih lines (idx + 1)
              (dedupKeyOf (combinedOf l rest) :: seen) hnext i hilt hilen hact hlen hseen2
              (fun j b hjb hji => hblock j b (by
                unfold extractLoopAux
                rw [if_neg hf, if_pos ha, if_pos hcond]
                exact List.mem_cons_of_mem _ hjb) hji)
            exact ⟨a, List.mem_cons_of_mem _ ha2⟩
          · rw [if_neg hcond]
            exact ih lines (idx + 1) seen hnext i hilt hilen hact hlen hseen
              (fun j b hjb => hblock j b (by
                unfold extractLoopAux
                rw [if_neg hf, if_pos ha, if_neg hcond]
                exact hjb))
        case isFalse ha =>
          exact ih lines (idx + 1) seen hnext i hilt hilen hact hlen hseen
            (fun j b hjb => hblock j b (by
              unfold extractLoopAux
              rw [if_neg hf, if_neg ha]
              exact hjb))

/-- C6: within one extraction pass, an entry is emitted at a line exactly when
the line is actionable, its combined text is longer than 10 characters, and no
earlier emitted entry carries the same dedup key; emitted entries carry the
line's speaker and combined text, their keys are pairwise distinct, and of two
actionable lines with equal keys only the first (when long enough) can
contribute. -/
theorem extraction_dedup_first_wins (lines : List TLine) :
    (∀ p ∈ extractTagged lines,
      p.1 < lines.length ∧ isActionable (textAt lines p.1) = true ∧
      p.2 = ⟨speakerAt lines p.1, combinedAt lines p.1⟩ ∧
      (combinedAt lines p.1).length > 10) ∧
    (∀ p ∈ extractTagged lines, ∀ q ∈ extractTagged lines,
      p.1 ≠ q.1 → keyAt lines p.1 ≠ keyAt lines q.1) ∧
    (∀ i j, i < j → isActionable (textAt lines i) = true →
      (combinedAt lines i).length > 10 → keyAt lines i = keyAt lines j →
      ∀ b, (j, b) ∉ extractTagged lines) ∧
    (∀ i, (∃ a, (i, a) ∈ extractTagged lines) ↔
      (i < lines.length ∧ isActionable (textAt lines i) = true ∧
       (combinedAt lines i).length > 10 ∧
       ¬∃ j b, (j, b) ∈ extractTagged lines ∧ j < i ∧
         keyAt lines j = keyAt lines i)) := by
  have hdrop : lines.drop 0 = lines := List.drop_zero lines
  refine ⟨?_, ?_, ?_, ?_⟩
  · intro p hp
    have h := extractLoop_mem_char lines lines 0 [] hdrop p hp
    exact ⟨h.2.1, h.2.2.1, h.2.2.2.1, h.2.2.2.2.1⟩
  · exact fun p hp q hq => extractLoop_keys_distinct lines lines 0 [] hdrop p hp q hq
  · exact fun i j hij hact hlen hkey =>
      extractLoop_first_wins lines lines 0 [] hdrop i j (Nat.zero_le i) hij hact hlen hkey
  · intro i
    constructor
    · rintro ⟨a, ha⟩
      have h := extractLoop_mem_char lines lines 0 [] hdrop (i, a) ha
      refine ⟨h.2.1, h.2.2.1, h.2.2.2.2.1, ?_⟩
      rintro ⟨j, b, hjb, hji, hkey⟩
      have hj := extractLoop_mem_char lines lines 0 [] hdrop (j, b) hjb
      exact extractLoop_first_wins lines lines 0 [] hdrop j i (Nat.zero_le j) hji
        hj.2.2.1 hj.2.2.2.2.1 hkey a ha
    · rintro ⟨hilen, hact, hlen, hnone⟩
      refine extractLoop_complete lines lines 0 [] hdrop i (Nat.zero_le i) hilen hact hlen
        (by simp) ?_
      intro j b hjb hji hkey
      exact hnone ⟨j, b, hjb, hji, hkey⟩

set_option maxRecDepth 10000 in
/-- Witness for C6 at a concrete key-colliding transcript (two actionable
lines whose combined texts share their first 60 characters). -/
theorem extraction_dedup_first_wins_witness :
    ∀ b, (1, b) ∉
      extractTagged
        [⟨"1", "me", "I'll send the full quarterly report to the entire team today"⟩,
         ⟨"2", "me", "I'll send the full quarterly report to the entire team today"⟩] := by
  intro b
  exact (extraction_dedup_first_wins
    [⟨"1", "me", "I'll send the full quarterly report to the entire team today"⟩,
     ⟨"2", "me", "I'll send the full quarterly report to the entire team today"⟩]).2.2.1
    0 1 (by decide) (by decide) (by decide) (by decide) b

theorem tsSplit_length : ∀ {r a b : List Char}, tsSplit r = some (a, b) →
    b.length < r.length := by
  intro r
  induction r with
  | nil => intro a b h; simp [tsSplit] at h
  | cons c r ih =>
    intro a b h
    unfold tsSplit at h
    by_cases hc : c = ']'
    · rw [if_pos hc] at h
      obtain ⟨rfl, rfl⟩ : a = [] ∧ b = r := by
        constructor <;> · injection h with h2; cases h2; rfl
      simp
    · rw [if_neg hc] at h
      cases h2 : tsSplit r with
      | none => rw [h2] at h; simp at h
      | some p =>
        rw [h2] at h
        simp only [Option.map_some'] at h
        have hb : b = p.2 := by injection h with h3; cases h3; rfl
        subst hb
        exact Nat.lt_trans (ih h2) (Nat.lt_succ_self _)

theorem spSplit_length : ∀ {r a b : List Char}, spSplit r = some (a, b) →
    b.length < r.length := by
  intro r
  induction r with
  | nil => intro a b h; simp [spSplit] at h
  | cons c r ih =>
    intro a b h
    unfold spSplit at h
    by_cases hc : isWordChar c = true
    · rw [if_pos hc] at h
      cases h2 : spSplit r with
      | none => rw [h2] at h; simp at h
      | some p =>
        rw [h2] at h
        simp only [Option.map_some'] at h
        have hb : b = p.2 := by injection h with h3; cases h3; rfl
        subst hb
        exact Nat.lt_trans (ih h2) (Nat.lt_succ_self _)
    · rw [if_neg hc] at h
      by_cases hp : c = ')'
      · rw [if_pos hp] at h
        have hb : b = r := by injection h with h3; cases h3; rfl
        subst hb
        simp
      · rw [if_neg hp] at h; simp at h

theorem textSplit_length : ∀ {r t rest : List Char}, textSplit r = some (t, rest) →
    rest.length < r.length := by
  intro r
  induction r with
  | nil => intro t rest h; simp [textSplit] at h
  | cons c r ih =>
    intro t rest h
    unfold textSplit at h
    by_cases hc : isSpaceChar c = true
    · rw [if_pos hc] at h
      cases h2 : textSplit r with
      | some p =>
        rw [h2] at h
        have hb : rest = p.2 := by injection h with h3; cases h3; rfl
        subst hb
        exact Nat.lt_trans (ih h2) (Nat.lt_succ_self _)
      | none =>
        rw [h2] at h
        by_cases hn : c = '\n'
        · rw [if_pos hn] at h; simp at h
        · rw [if_neg hn] at h
          have hb : rest = r.drop (r.takeWhile (fun d => d ≠ '\n')).length := by
            injection h with h3; cases h3; rfl
          subst hb
          have hd := List.length_drop (r.takeWhile (fun d => d ≠ '\n')).length r
          simp only [List.length_cons]
          omega
    · rw [if_neg hc] at h
      have hb : rest = r.drop (r.takeWhile (fun d => d ≠ '\n')).length := by
        injection h with h3; cases h3; rfl
      subst hb
      have hd := List.length_drop (r.takeWhile (fun d => d ≠ '\n')).length r
      simp only [List.length_cons]
      omega

theorem matchTLine_length : ∀ {s : List Char} {tl : TLine} {rest : List Char},
    matchTLine s = some (tl, rest) → rest.length < s.length := by
  intro s tl rest h
  cases s with
  | nil => simp [matchTLine] at h
  | cons c r =>
    unfold matchTLine at h
    split at h
    case h_2 => simp at h
    case h_1 c' r' heq =>
      obtain ⟨rfl, rfl⟩ : c = '[' ∧ r' = r := by
        injection heq with h1 h2; exact ⟨h1, h2.symm⟩
      split at h
      case h_2 => simp at h
      case h_1 ts r2 hts =>
        split at h
        · simp at h
        · split at h
          case h_2 => simp at h
          case h_1 x r4 hdw =>
            split at h
            case h_2 => simp at h
            case h_1 sp r6 hsp =>
              split at h
              · simp at h
              · split at h
                case h_2 => simp at h
                case h_1 t rest2 htx =>
                  have hb : rest = rest2 := by injection h with h3; cases h3; rfl
                  subst hb
                  have l1 := tsSplit_length hts
                  have l2 : r4.length < r2.length := by
                    have hle : (r2.dropWhile isSpaceChar).length ≤ r2.length :=
                      (List.dropWhile_sublist _).length_le
                    rw [hdw] at hle
                    simp only [List.length_cons] at hle
                    omega
                  have l3 := spSplit_length hsp
                  have l4 := textSplit_length htx
                  simp only [List.length_cons]
                  omega

theorem scanLines_nil (f : Nat) (b : Bool) : scanLines f b [] = [] := by
  cases f <;> rfl

theorem scanLines_step_true (k : Nat) (c : Char) (r : List Char) :
    scanLines (k + 1) true (c :: r) =
      (match matchTLine (c :: r) with
       | some (tl, rest) => tl :: scanLines k false rest
       | none => scanLines k (c = '\n') r) := rfl

theorem scanLines_step_false (k : Nat) (c : Char) (r : List Char) :
    scanLines (k + 1) false (c :: r) = scanLines k (c = '\n') r := rfl

theorem scan_fuel_eq : ∀ (f₁ : Nat) (l : List Char) (b : Bool) (f₂ : Nat),
    l.length ≤ f₁ → l.length ≤ f₂ → scanLines f₁ b l = scanLines f₂ b l := by
  intro f₁
  induction f₁ with
  | zero =>
    intro l b f₂ h1 _
    have : l = [] := List.eq_nil_of_length_eq_zero (Nat.le_zero.mp h1)
    subst this
    rw [scanLines_nil, scanLines_nil]
  | succ f ih =>
    intro l b f₂ h1 h2
    cases l with
    | nil => rw [scanLines_nil, scanLines_nil]
    | cons c r =>
      cases f₂ with
      | zero => simp at h2
      | succ k =>
        simp only [List.length_cons] at h1 h2
        show scanLines (f + 1) b (c :: r) = scanLines (k + 1) b (c :: r)
        unfold scanLines
        cases b with
        | false =>
          simp only [if_neg (Bool.false_ne_true)]
          exact ih r _ k (by omega) (by omega)
        | true =>
          simp only [if_pos rfl]
          cases hm : matchTLine (c :: r) with
          | none => exact ih r _ k (by omega) (by omega)
          | some p =>
            have hlt := matchTLine_length hm
            simp only [List.length_cons] at hlt
            exact congrArg (p.1 :: ·) (ih p.2 false k (by omega) (by omega))

theorem matchTLine_none_of_head {c : Char} (r : List Char) (hc : c ≠ '[') :
    matchTLine (c :: r) = none := by
  unfold matchTLine
  split
  case h_1 c' r' heq =>
    injection heq with h1 h2
    exact absurd h1 hc
  case h_2 => rfl

theorem tsSplit_append : ∀ {r a b suf : List Char}, tsSplit r = some (a, b) →
    tsSplit (r ++ suf) = some (a, b ++ suf) := by
  intro r
  induction r with
  | nil => intro a b suf h; simp [tsSplit] at h
  | cons c r ih =>
    intro a b suf h
    unfold tsSplit at h
    show tsSplit (c :: (r ++ suf)) = some (a, b ++ suf)
    simp only [tsSplit]
    by_cases hc : c = ']'
    · rw [if_pos hc] at h
      rw [if_pos hc]
      obtain ⟨rfl, rfl⟩ : a = [] ∧ b = r := by
        constructor <;> · injection h with h2; cases h2; rfl
      rfl
    · rw [if_neg hc] at h
      rw [if_neg hc]
      cases h2 : tsSplit r with
      | none => rw [h2] at h; simp at h
      | some p =>
        rw [h2] at h
        simp only [Option.map_some'] at h
        obtain ⟨rfl, rfl⟩ : a = c :: p.1 ∧ b = p.2 := by
          constructor <;> · injection h with h3; cases h3; rfl
        rw [ih h2]
        rfl

theorem spSplit_append : ∀ {r a b suf : List Char}, spSplit r = some (a, b) →
    spSplit (r ++ suf) = some (a, b ++ suf) := by
  intro r
  induction r with
  | nil => intro a b suf h; simp [spSplit] at h
  | cons c r ih =>
    intro a b suf h
    unfold spSplit at h
    show spSplit (c :: (r ++ suf)) = some (a, b ++ suf)
    simp only [spSplit]
    by_cases hc : isWordChar c = true
    · rw [if_pos hc] at h
      rw [if_pos hc]
      cases h2 : spSplit r with
      | none => rw [h2] at h; simp at h
      | some p =>
        rw [h2] at h
        simp only [Option.map_some'] at h
        obtain ⟨rfl, rfl⟩ : a = c :: p.1 ∧ b = p.2 := by
          constructor <;> · injection h with h3; cases h3; rfl
        rw [ih h2]
        rfl
    · rw [if_neg hc] at h
      rw [if_neg hc]
      by_cases hp : c = ')'
      · rw [if_pos hp] at h
        rw [if_pos hp]
        obtain ⟨rfl, rfl⟩ : a = [] ∧ b = r := by
          constructor <;> · injection h with h2; cases h2; rfl
        rfl
      · rw [if_neg hp] at h; simp at h

theorem textSplit_none_all_nl : ∀ {r : List Char}, textSplit r = none →
    ∀ c ∈ r, c = '\n' := by
  intro r
  induction r with
  | nil => intro _ c hc; simp at hc
  | cons c r ih =>
    intro h d hd
    unfold textSplit at h
    by_cases hc : isSpaceChar c = true
    · rw [if_pos hc] at h
      cases h2 : textSplit r with
      | some p => rw [h2] at h; simp at h
      | none =>
        rw [h2] at h
        by_cases hn : c = '\n'
        · rcases List.mem_cons.mp hd with rfl | hd2
          · exact hn
          · exact ih h2 d hd2
        · rw [if_neg hn] at h; simp at h
    · rw [if_neg hc] at h; simp at h

theorem takeWhile_neq_nl_self {r : List Char} (hn : '\n' ∉ r) :
    r.takeWhile (fun d => d ≠ '\n') = r := by
  apply List.takeWhile_eq_self_iff.mpr
  intro x hx
  simp only [ne_eq, decide_eq_true_eq]
  exact fun he => hn (he ▸ hx)

theorem textSplit_append : ∀ {r t rest suf : List Char}, '\n' ∉ r →
    textSplit r = some (t, rest) → t ≠ [] →
    textSplit (r ++ '\n' :: suf) = some (t, '\n' :: suf) := by
  intro r
  induction r with
  | nil => intro t rest suf _ h _; simp [textSplit] at h
  | cons c r ih =>
    intro t rest suf hn h ht
    have hcn : c ≠ '\n' := fun he => hn (he ▸ List.mem_cons_self _ _)
    have hn' : '\n' ∉ r := fun hm => hn (List.mem_cons_of_mem _ hm)
    unfold textSplit at h
    show textSplit (c :: (r ++ '\n' :: suf)) = some (t, '\n' :: suf)
    simp only [textSplit]
    by_cases hc : isSpaceChar c = true
    · rw [if_pos hc] at h ⊢
      cases h2 : textSplit r with
      | some p =>
        rw [h2] at h
        have hp : p = (t, rest) := by injection h
        subst hp
        rw [ih hn' h2 ht]
      | none =>
        rw [h2] at h
        rw [if_neg hcn] at h
        have hr : r = [] := by
          cases r with
          | nil => rfl
          | cons d r2 =>
            have := textSplit_none_all_nl h2 d (List.mem_cons_self _ _)
            exact absurd this (fun he => hn' (he ▸ List.mem_cons_self _ _))
        subst hr
        obtain ⟨rfl, rfl⟩ : t = pyStrip [c] ∧ rest = [] := by
          constructor <;> · injection h with h3; cases h3; rfl
        have : pyStrip [c] = [] := by
          simp [pyStrip, List.dropWhile, hc]
        exact absurd this ht
    · rw [if_neg hc] at h ⊢
      rw [takeWhile_neq_nl_self hn'] at h
      obtain ⟨rfl, rfl⟩ : t = pyStrip (c :: r) ∧ rest = r.drop r.length := by
        constructor <;> · injection h with h3; cases h3; rfl
      have h1 : (r ++ '\n' :: suf).takeWhile (fun d => d ≠ '\n') = r := by
        rw [List.takeWhile_append_of_pos]
        · simp [List.takeWhile]
        · intro a ha
          simp only [ne_eq, decide_eq_true_eq]
          exact fun he => hn' (he ▸ ha)
      rw [h1, List.drop_left]

theorem tsSplit_sublist : ∀ {r a b : List Char}, tsSplit r = some (a, b) →
    b.Sublist r := by
  intro r
  induction r with
  | nil => intro a b h; simp [tsSplit] at h
  | cons c r ih =>
    intro a b h
    unfold tsSplit at h
    by_cases hc : c = ']'
    · rw [if_pos hc] at h
      have : b = r := by injection h with h2; cases h2; rfl
      subst this
      exact (List.sublist_cons_self _ _)
    · rw [if_neg hc] at h
      cases h2 : tsSplit r with
      | none => rw [h2] at h; simp at h
      | some p =>
        rw [h2] at h
        simp only [Option.map_some'] at h
        have : b = p.2 := by injection h with h3; cases h3; rfl
        subst this
        exact (ih h2).trans (List.sublist_cons_self _ _)

theorem spSplit_sublist : ∀ {r a b : List Char}, spSplit r = some (a, b) →
    b.Sublist r := by
  intro r
  induction r with
  | nil => intro a b h; simp [spSplit] at h
  | cons c r ih =>
    intro a b h
    unfold spSplit at h
    by_cases hc : isWordChar c = true
    · rw [if_pos hc] at h
      cases h2 : spSplit r with
      | none => rw [h2] at h; simp at h
      | some p =>
        rw [h2] at h
        simp only [Option.map_some'] at h
        have : b = p.2 := by injection h with h3; cases h3; rfl
        subst this
        exact (ih h2).trans (List.sublist_cons_self _ _)
    · rw [if_neg hc] at h
      by_cases hp : c = ')'
      · rw [if_pos hp] at h
        have : b = r := by injection h with h2; cases h2; rfl
        subst this
        exact (List.sublist_cons_self _ _)
      · rw [if_neg hp] at h; simp at h

theorem matchTLine_append {lc : List Char} {tl : TLine} {suf : List Char}
    (hn : '\n' ∉ lc) (h : matchTLine lc = some (tl, []))
    (ht : tl.text ≠ "") :
    matchTLine (lc ++ '\n' :: suf) = some (tl, '\n' :: suf) := by
  cases lc with
  | nil => simp [matchTLine] at h
  | cons c r =>
    have hc : c = '[' := by
      by_contra hcne
      rw [matchTLine_none_of_head r hcne] at h
      simp at h
    subst hc
    have hn' : '\n' ∉ r := fun hm => hn (List.mem_cons_of_mem _ hm)
    simp only [matchTLine] at h
    show matchTLine ('[' :: (r ++ '\n' :: suf)) = some (tl, '\n' :: suf)
    simp only [matchTLine]
    split at h
    case h_2 => simp at h
    case h_1 ts r2 hts =>
      simp only [tsSplit_append hts]
      split at h
      case isTrue => simp at h
      case isFalse hne =>
        rw [if_neg hne]
        split at h
        case h_2 => simp at h
        case h_1 x r4 hdw =>
          have hdw2 : (r2 ++ '\n' :: suf).dropWhile isSpaceChar =
              '(' :: (r4 ++ '\n' :: suf) := by
            rw [List.dropWhile_append, hdw]
            rfl
          simp only [hdw2]
          split at h
          case h_2 => simp at h
          case h_1 sp r6 hsp =>
            simp only [spSplit_append hsp]
            split at h
            case isTrue => simp at h
            case isFalse hne2 =>
              rw [if_neg hne2]
              split at h
              case h_2 => simp at h
              case h_1 t rest2 htx =>
                obtain ⟨rfl, rfl⟩ : tl = ⟨⟨ts⟩, ⟨sp⟩, ⟨t⟩⟩ ∧ rest2 = [] := by
                  constructor
                  · injection h with h3; cases h3; rfl
                  · injection h with h3; cases h3; rfl
                have hn6 : '\n' ∉ r6 := by
                  intro hm
                  have hs1 := tsSplit_sublist hts
                  have hs2 : r4.Sublist r2 := by
                    have hsub : (r2.dropWhile isSpaceChar).Sublist r2 :=
                      List.dropWhile_sublist _
                    rw [hdw] at hsub
                    exact (List.sublist_cons_self '(' r4).trans hsub
                  have hs3 := spSplit_sublist hsp
                  exact hn' (hs1.mem (hs2.mem (hs3.mem hm)))
                have ht2 : t ≠ [] := by
                  intro he
                  apply ht
                  show String.mk t = ""
                  rw [he]
                simp only [textSplit_append hn6 htx ht2]

theorem scan_false_no_nl : ∀ {lc : List Char}, '\n' ∉ lc →
    ∀ f : Nat, scanLines f false lc = [] := by
  intro lc
  induction lc with
  | nil => intro _ f; rw [scanLines_nil]
  | cons c r ih =>
    intro hn f
    cases f with
    | zero => rfl
    | succ k =>
      have hcn : c ≠ '\n' := fun he => hn (he ▸ List.mem_cons_self _ _)
      show scanLines (k + 1) false (c :: r) = []
      rw [scanLines_step_false, decide_eq_false hcn]
      exact ih (fun hm => hn (List.mem_cons_of_mem _ hm)) k

theorem scan_false_then : ∀ {lc : List Char} (suf : List Char), '\n' ∉ lc →
    ∀ f : Nat, (lc ++ '\n' :: suf).length ≤ f →
    scanLines f false (lc ++ '\n' :: suf) = scanLines suf.length true suf := by
  intro lc
  induction lc with
  | nil =>
    intro suf _ f hf
    simp only [List.nil_append, List.length_cons] at hf ⊢
    cases f with
    | zero => omega
    | succ k =>
      show scanLines (k + 1) false ('\n' :: suf) = _
      rw [scanLines_step_false, decide_eq_true rfl]
      exact scan_fuel_eq k suf true suf.length (by omega) (Nat.le_refl _)
  | cons c r ih =>
    intro suf hn f hf
    have hcn : c ≠ '\n' := fun he => hn (he ▸ List.mem_cons_self _ _)
    simp only [List.cons_append, List.length_cons] at hf ⊢
    cases f with
    | zero => omega
    | succ k =>
      show scanLines (k + 1) false (c :: (r ++ '\n' :: suf)) = _
      rw [scanLines_step_false, decide_eq_false hcn]
      exact ih suf (fun hm => hn (List.mem_cons_of_mem _ hm)) k (by
        simp only [List.length_append, List.length_cons] at hf ⊢
        omega)

theorem scan_junk_line : ∀ {lc : List Char} (suf : List Char), '\n' ∉ lc →
    lc.head? ≠ some '[' →
    ∀ f : Nat, (lc ++ '\n' :: suf).length ≤ f →
    scanLines f true (lc ++ '\n' :: suf) = scanLines suf.length true suf := by
  intro lc suf hn hh f hf
  cases lc with
  | nil =>
    simp only [List.nil_append, List.length_cons] at hf ⊢
    cases f with
    | zero => omega
    | succ k =>
      show scanLines (k + 1) true ('\n' :: suf) = _
      rw [scanLines_step_true]
      simp only [@matchTLine_none_of_head '\n' suf (by decide)]
      show scanLines k true suf = scanLines suf.length true suf
      exact scan_fuel_eq k suf true suf.length (by omega) (Nat.le_refl _)
  | cons c r =>
    have hc : c ≠ '[' := fun he => hh (by rw [he]; rfl)
    have hcn : c ≠ '\n' := fun he => hn (he ▸ List.mem_cons_self _ _)
    simp only [List.cons_append, List.length_cons] at hf ⊢
    cases f with
    | zero => omega
    | succ k =>
      show scanLines (k + 1) true (c :: (r ++ '\n' :: suf)) = _
      rw [scanLines_step_true]
      simp only [matchTLine_none_of_head _ hc]
      rw [decide_eq_false hcn]
      exact scan_false_then suf (fun hm => hn (List.mem_cons_of_mem _ hm)) k (by
        simp only [List.length_append, List.length_cons] at hf ⊢
        omega)

theorem scan_match_line : ∀ {lc : List Char} (suf : List Char) {tl : TLine},
    '\n' ∉ lc → matchTLine lc = some (tl, []) → tl.text ≠ "" →
    ∀ f : Nat, (lc ++ '\n' :: suf).length ≤ f →
    scanLines f true (lc ++ '\n' :: suf) = tl :: scanLines suf.length true suf := by
  intro lc suf tl hn h ht f hf
  cases lc with
  | nil => simp [matchTLine] at h
  | cons c r =>
    simp only [List.cons_append, List.length_cons] at hf ⊢
    cases f with
    | zero => omega
    | succ k =>
      show scanLines (k + 1) true (c :: (r ++ '\n' :: suf)) = _
      rw [scanLines_step_true]
      have happ := @matchTLine_append (c :: r) tl suf hn h ht
      simp only [List.cons_append] at happ
      simp only [happ]
      refine congrArg (tl :: ·) ?_
      exact @scan_false_then [] suf (by simp) k (by
        simp only [List.length_append, List.length_cons, List.nil_append] at hf ⊢
        omega)

theorem scan_junk_last : ∀ {lc : List Char}, '\n' ∉ lc → lc.head? ≠ some '[' →
    ∀ f : Nat, scanLines f true lc = [] := by
  intro lc hn hh f
  cases lc with
  | nil => rw [scanLines_nil]
  | cons c r =>
    have hc : c ≠ '[' := fun he => hh (by rw [he]; rfl)
    have hcn : c ≠ '\n' := fun he => hn (he ▸ List.mem_cons_self _ _)
    cases f with
    | zero => rfl
    | succ k =>
      show scanLines (k + 1) true (c :: r) = []
      rw [scanLines_step_true]
      simp only [matchTLine_none_of_head _ hc]
      rw [decide_eq_false hcn]
      exact scan_false_no_nl (fun hm => hn (List.mem_cons_of_mem _ hm)) k

theorem scan_match_last : ∀ {lc : List Char} {tl : TLine},
    matchTLine lc = some (tl, []) →
    ∀ f : Nat, lc.length ≤ f → scanLines f true lc = [tl] := by
  intro lc tl h f hf
  cases lc with
  | nil => simp [matchTLine] at h
  | cons c r =>
    simp only [List.length_cons] at hf
    cases f with
    | zero => omega
    | succ k =>
      show scanLines (k + 1) true (c :: r) = [tl]
      rw [scanLines_step_true]
      simp only [h]
      rw [scanLines_nil]

theorem lineOk_elim {l : String} (h : lineOk l = true) :
    '\n' ∉ l.toList ∧
    (l.toList.head? = some '[' →
      ∃ tl : TLine, matchTLine l.toList = some (tl, []) ∧ tl.text ≠ "") := by
  unfold lineOk at h
  split at h
  · simp at h
  case isFalse hnl =>
    refine ⟨hnl, ?_⟩
    intro hh
    rw [if_pos hh] at h
    split at h
    case h_1 tl rest hm =>
      refine ⟨tl, ?_, ?_⟩
      · rw [hm]
        have : rest = [] := List.isEmpty_iff.mp ((Bool.and_eq_true _ _).mp h).1
        rw [this]
      · have := ((Bool.and_eq_true _ _).mp h).2
        simpa using this
    case h_2 => simp at h

theorem matchTLine_none_of_not_head {lc : List Char} (hh : lc.head? ≠ some '[') :
    matchTLine lc = none := by
  cases lc with
  | nil => rfl
  | cons c r => exact matchTLine_none_of_head r (fun he => hh (by rw [he]; rfl))

/-- The line-skipping behavior of the transcript parser: on a text made of
newline-joined physical lines, each of which either fails to start with `[`
(and hence cannot match) or matches the pattern on its own, the parser returns
exactly the per-line matches, silently skipping all non-matching lines. -/
theorem scan_joinNL : ∀ ls : List String, (∀ l ∈ ls, lineOk l = true) →
    parseTranscriptLines (joinNL ls) =
      ls.filterMap (fun l => (matchTLine l.toList).map Prod.fst) := by
  intro ls
  induction ls with
  | nil => intro _; rfl
  | cons l ls ih =>
    intro hok
    have hl := lineOk_elim (hok l (List.mem_cons_self _ _))
    have hrest : ∀ x ∈ ls, lineOk x = true := fun x hx => hok x (List.mem_cons_of_mem _ hx)
    cases ls with
    | nil =>
      show scanLines l.toList.length true l.toList = _
      by_cases hh : l.toList.head? = some '['
      · obtain ⟨tl, hm, _⟩ := hl.2 hh
        rw [scan_match_last hm _ (Nat.le_refl _)]
        simp only [List.filterMap_cons, List.filterMap_nil, hm, Option.map_some']
      · rw [scan_junk_last hl.1 hh _]
        simp only [List.filterMap_cons, List.filterMap_nil,
          matchTLine_none_of_not_head hh, Option.map_none']
    | cons l2 ls2 =>
      have hjoin : joinNL (l :: l2 :: ls2) = l.toList ++ '\n' :: joinNL (l2 :: ls2) := rfl
      show scanLines (joinNL (l :: l2 :: ls2)).length true (joinNL (l :: l2 :: ls2)) = _
      rw [hjoin]
      by_cases hh : l.toList.head? = some '['
      · obtain ⟨tl, hm, hne⟩ := hl.2 hh
        rw [scan_match_line _ hl.1 hm hne _ (Nat.le_refl _)]
        rw [List.filterMap_cons]
        simp only [hm, Option.map_some']
        exact congrArg (tl :: ·) (ih hrest)
      · rw [scan_junk_line _ hl.1 hh _ (Nat.le_refl _)]
        rw [List.filterMap_cons]
        simp only [matchTLine_none_of_not_head hh, Option.map_none']
        exact ih hrest

/-- C9: extraction always returns a (title, items) pair; a missing transcript
section, the unavailable-transcript sentinel, and the absence of parseable
lines each yield an empty item list rather than an error; and transcript
lines not matching the `[timestamp] (speaker) text` pattern are silently
skipped while matching lines are all parsed. -/
theorem extraction_total_and_graceful :
    (∀ stem content : String, extract_action_items_from_file stem content =
      (extractTitle stem content, extractedItems content)) ∧
    (∀ stem content : String, findTransAux content.toList = none →
      extract_action_items_from_file stem content = (extractTitle stem content, [])) ∧
    (∀ ttext : List Char,
      (dropPref "Transcript not available".toList ttext).isSome = true →
      itemsOfTranscript ttext = []) ∧
    (∀ ttext : List Char, parseTranscriptLines ttext = [] →
      itemsOfTranscript ttext = []) ∧
    (∀ ls : List String, (∀ l ∈ ls, lineOk l = true) →
      parseTranscriptLines (joinNL ls) =
        ls.filterMap (fun l => (matchTLine l.toList).map Prod.fst)) := by
  refine ⟨fun _ _ => rfl, ?_, ?_, ?_, scan_joinNL⟩
  · intro stem content h
    unfold extract_action_items_from_file extractedItems
    rw [h]
  · intro ttext h
    unfold itemsOfTranscript
    rw [if_pos h]
  · intro ttext h
    unfold itemsOfTranscript
    split
    · rfl
    · rw [h]
      rfl

/-- Witness for C9: a junk line is skipped, a matching line is parsed. -/
theorem extraction_total_and_graceful_witness :
    (∀ l ∈ ["random chatter", "[1] (me) I'll send it by friday"], lineOk l = true) ∧
    parseTranscriptLines (joinNL ["random chatter", "[1] (me) I'll send it by friday"]) =
      ["random chatter", "[1] (me) I'll send it by friday"].filterMap
        (fun l => (matchTLine l.toList).map Prod.fst) :=
  ⟨by decide, extraction_total_and_graceful.2.2.2.2 _ (by decide)⟩

/-- C8 counterexample: an item whose text starts with `(me)` but not with
`(me) ` (no space) and holds no `katie` is placed in the owner partition by
the code, contradicting the claim's "starts with the `\"(me) \"` self-tag"
reading. -/
theorem attribution_me_prefix_counterexample :
    split_katie_items [⟨"M", ["(me)ship it"]⟩] = ([⟨"M", ["(me)ship it"]⟩], []) ∧
    specOwnerPred "(me)ship it" = false := by
  constructor
  · decide
  · decide

/-- C8 amended: the owner test accepts the `(me)` prefix (without requiring a
trailing space) or a whole-word, case-insensitive `katie`; both partitions are
order-preserving filters, and a meeting contributes a group to an output list
exactly when that part is non-empty. -/
theorem attribution_partition_amended :
    (∀ gs : List MeetingGroup,
      split_katie_items gs =
        (gs.filterMap (fun g =>
          if (g.items.filter isKatieItem).isEmpty then none
          else some ⟨g.title, g.items.filter isKatieItem⟩),
         gs.filterMap (fun g =>
          if (g.items.filter (fun i => !isKatieItem i)).isEmpty then none
          else some ⟨g.title, g.items.filter (fun i => !isKatieItem i)⟩))) ∧
    (∀ item : String, isKatieItem item =
      ((dropPref "(me)".toList item.toList).isSome || katieWordSearch item)) ∧
    katieWordSearch "katiesburg" = false ∧
    katieWordSearch "Ask Katie about Q3" = true ∧
    isKatieItem "(me)ship it" = true := by
  refine ⟨?_, fun _ => rfl, by decide, by decide, by decide⟩
  intro gs
  induction gs with
  | nil => rfl
  | cons g rest ih =>
    by_cases h1 : (g.items.filter isKatieItem).isEmpty = true <;>
      by_cases h2 : (g.items.filter (fun i => !isKatieItem i)).isEmpty = true
    · simp only [split_katie_items, List.filterMap_cons, ih, if_pos h1, if_pos h2]
    · simp only [split_katie_items, List.filterMap_cons, ih, if_pos h1, if_neg h2]
    · simp only [split_katie_items, List.filterMap_cons, ih, if_neg h1, if_pos h2]
    · simp only [split_katie_items, List.filterMap_cons, ih, if_neg h1, if_neg h2]

/-! ### Round trip: `json.loads` inverts `json.dumps` on the option values -/

theorem digitChar_toNat {n : Nat} (h : n < 10) :
    (Char.ofNat ('0'.toNat + n)).toNat = '0'.toNat + n := by
  interval_cases n <;> decide

theorem digitChar_isDigit {n : Nat} (h : n < 10) :
    (Char.ofNat ('0'.toNat + n)).isDigit = true := by
  interval_cases n <;> decide

theorem digitChar_ne_zero {n : Nat} (h1 : 1 ≤ n) (h2 : n < 10) :
    Char.ofNat ('0'.toNat + n) ≠ '0' := by
  interval_cases n <;> decide

theorem digitsVal_append_one (xs : List Char) (d : Char) :
    digitsVal (xs ++ [d]) = digitsVal xs * 10 + (d.toNat - '0'.toNat) := by
  unfold digitsVal
  rw [List.foldl_append]
  rfl

theorem natDigitsAux_spec : ∀ (fuel n : Nat), n < fuel →
    digitsVal (natDigitsAux fuel n) = n ∧
    natDigitsAux fuel n ≠ [] ∧
    (∀ c ∈ natDigitsAux fuel n, c.isDigit = true) ∧
    (1 ≤ n → natDigitsAux fuel n ≠ ['0'] ∧
      ∀ ds, natDigitsAux fuel n ≠ '0' :: ds) := by
  intro fuel
  induction fuel with
  | zero => intro n h; omega
  | succ f ih =>
    intro n h
    by_cases hn : n < 10
    · unfold natDigitsAux
      rw [if_pos hn]
      refine ⟨?_, by simp, ?_, ?_⟩
      · show digitsVal [Char.ofNat ('0'.toNat + n)] = n
        have hh := digitChar_toNat hn
        unfold digitsVal
        simp only [List.foldl_cons, List.foldl_nil, hh]
        omega
      · intro c hc
        rw [List.mem_singleton] at hc
        subst hc
        exact digitChar_isDigit hn
      · intro h1
        constructor
        · intro he
          exact digitChar_ne_zero h1 hn (by injection he)
        · intro ds he
          exact digitChar_ne_zero h1 hn (by injection he)
    · unfold natDigitsAux
      rw [if_neg hn]
      have hd : n / 10 < f := by
        have := Nat.div_lt_self (by omega : 0 < n) (by omega : 1 < 10)
        omega
      obtain ⟨ihv, ihne, ihd, ihz⟩ := ih (n / 10) hd
      have hmod : n % 10 < 10 := Nat.mod_lt n (by omega)
      refine ⟨?_, ?_, ?_, ?_⟩
      · rw [digitsVal_append_one, ihv, digitChar_toNat hmod]
        omega
      · intro he
        exact ihne (List.append_eq_nil.mp he).1
      · intro c hc
        rcases List.mem_append.mp hc with hc1 | hc1
        · exact ihd c hc1
        · rw [List.mem_singleton] at hc1
          subst hc1
          exact digitChar_isDigit hmod
      · intro _
        have hz := ihz (by omega : 1 ≤ n / 10)
        cases hx : natDigitsAux f (n / 10) with
        | nil => exact absurd hx ihne
        | cons c ds =>
          have hc0 : c ≠ '0' := by
            intro he
            exact hz.2 ds (by rw [hx, he])
          constructor
          · intro he
            simp only [List.cons_append] at he
            injection he with he1 _
            exact hc0 he1
          · intro ds2 he
            simp only [List.cons_append] at he
            injection he with he1 _
            exact hc0 he1

theorem natDigits_val (n : Nat) : digitsVal (natDigits n) = n :=
  (natDigitsAux_spec (n + 1) n (Nat.lt_succ_self n)).1

theorem natDigits_ne_nil (n : Nat) : natDigits n ≠ [] :=
  (natDigitsAux_spec (n + 1) n (Nat.lt_succ_self n)).2.1

theorem natDigits_all_digits (n : Nat) : ∀ c ∈ natDigits n, c.isDigit = true :=
  (natDigitsAux_spec (n + 1) n (Nat.lt_succ_self n)).2.2.1

theorem natDigits_zero : natDigits 0 = ['0'] := rfl

theorem natDigits_pos_head (n : Nat) (h : 1 ≤ n) :
    ∀ ds, natDigits n ≠ '0' :: ds :=
  ((natDigitsAux_spec (n + 1) n (Nat.lt_succ_self n)).2.2.2 h).2

theorem parseNumBody_cons_ne_zero (neg : Bool) {c : Char} (r : List Char)
    (hc : c ≠ '0') :
    parseNumBody neg (c :: r) =
      if c.isDigit then
        numTail neg (c :: r.takeWhile Char.isDigit) (r.dropWhile Char.isDigit)
      else none := by
  unfold parseNumBody
  split
  case h_1 r2 heq =>
    injection heq with h1 _
    exact absurd h1 hc
  case h_2 c2 r2 heq =>
    injection heq with h1 h2
    subst h1
    subst h2
    rfl
  case h_3 heq => simp at heq

theorem numTail_comma (neg : Bool) (ds : List Char) (rest : List Char) :
    numTail neg ds (',' :: rest) =
      some (Json.num (if neg then -(digitsVal ds : Int) else (digitsVal ds : Int)),
        ',' :: rest) := rfl

theorem numTail_nil (neg : Bool) (ds : List Char) :
    numTail neg ds [] =
      some (Json.num (if neg then -(digitsVal ds : Int) else (digitsVal ds : Int)), []) := rfl

/-- Parsing the decimal digits of `n` followed by a comma yields `n`. -/
theorem parseNumBody_natDigits (n : Nat) (rest : List Char) :
    parseNumBody false (natDigits n ++ ',' :: rest) =
      some (Json.num n, ',' :: rest) := by
  by_cases h0 : n = 0
  · subst h0
    rw [natDigits_zero]
    show parseNumBody false ('0' :: ',' :: rest) = _
    unfold parseNumBody
    simp only [List.head?_cons]
    rw [if_neg (by decide : ¬(',').isDigit = true)]
    rw [numTail_comma]
    simp [digitsVal]
  · cases hx : natDigits n with
    | nil => exact absurd hx (natDigits_ne_nil n)
    | cons c ds =>
      have hall := natDigits_all_digits n
      rw [hx] at hall
      have hcd : c.isDigit = true := hall c (List.mem_cons_self _ _)
      have hcz : c ≠ '0' := by
        intro he
        exact natDigits_pos_head n (by omega) ds (by rw [hx, he])
      have hds : ∀ d ∈ ds, d.isDigit = true :=
        fun d hd => hall d (List.mem_cons_of_mem _ hd)
      show parseNumBody false (c :: (ds ++ ',' :: rest)) = _
      rw [parseNumBody_cons_ne_zero false _ hcz, if_pos hcd]
      have htw : (ds ++ ',' :: rest).takeWhile Char.isDigit = ds := by
        rw [List.takeWhile_append_of_pos hds]
        simp [List.takeWhile]
      have hdw : (ds ++ ',' :: rest).dropWhile Char.isDigit = ',' :: rest := by
        rw [List.dropWhile_append_of_pos hds]
        simp [List.dropWhile]
      rw [htw, hdw, numTail_comma]
      have hv : digitsVal (c :: ds) = n := by rw [← hx]; exact natDigits_val n
      rw [hv]
      simp

theorem hexVal_hexDigit {v : Nat} (h : v < 16) : hexVal (hexDigit v) = some v := by
  interval_cases v <;> decide

theorem parseStrBody_quote (r : List Char) : parseStrBody ('"' :: r) = some ([], r) := rfl

theorem parseStrBody_escQuote (r : List Char) :
    parseStrBody ('\\' :: '"' :: r) =
      (parseStrBody r).map (fun p => ('"' :: p.1, p.2)) := rfl

theorem parseStrBody_escBack (r : List Char) :
    parseStrBody ('\\' :: '\\' :: r) =
      (parseStrBody r).map (fun p => ('\\' :: p.1, p.2)) := rfl

theorem parseStrBody_u4 {h1 h2 h3 h4 : Char} {a b c d : Nat} (r : List Char)
    (e1 : hexVal h1 = some a) (e2 : hexVal h2 = some b)
    (e3 : hexVal h3 = some c) (e4 : hexVal h4 = some d)
    (hlt : ((a * 16 + b) * 16 + c) * 16 + d < 0xD800) :
    parseStrBody ('\\' :: 'u' :: h1 :: h2 :: h3 :: h4 :: r) =
      (parseStrBody r).map
        (fun p => (Char.ofNat (((a * 16 + b) * 16 + c) * 16 + d) :: p.1, p.2)) := by
  simp only [parseStrBody]
  rw [e1, e2, e3, e4]
  simp only []
  rw [if_pos (Or.inl hlt)]

theorem parseStrBody_plain {c : Char} (r : List Char)
    (hq : c ≠ '"') (hb : c ≠ '\\') :
    parseStrBody (c :: r) =
      if c.toNat < 0x20 then none
      else (parseStrBody r).map (fun p => (c :: p.1, p.2)) := by
  conv_lhs => unfold parseStrBody
  split
  case h_1 heq => simp at heq
  case h_2 r2 heq =>
    injection heq with he1 _
    exact absurd he1 hq
  case h_3 e r2 heq =>
    injection heq with he1 _
    exact absurd he1 hb
  case h_4 =>
    rename_i heq
    injection heq with he1 he2
    subst he1
    subst he2
    rfl

/-- The JSON string parser inverts the `json.dumps` character encoding. -/
theorem parseStrBody_encode : ∀ (cs : List Char) (rest : List Char),
    parseStrBody ((cs.map encodeJsonChar).flatten ++ '"' :: rest) = some (cs, rest) := by
  intro cs
  induction cs with
  | nil => intro rest; rfl
  | cons c cs ih =>
    intro rest
    have hsplit : ((c :: cs).map encodeJsonChar).flatten ++ '"' :: rest =
        encodeJsonChar c ++ ((cs.map encodeJsonChar).flatten ++ '"' :: rest) := by
      simp [List.append_assoc]
    rw [hsplit]
    by_cases hq : c = '"'
    · subst hq
      have he : encodeJsonChar '"' = ['\\', '"'] := rfl
      rw [he]
      simp only [List.cons_append, List.nil_append]
      rw [parseStrBody_escQuote, ih rest]
      rfl
    · by_cases hb : c = '\\'
      · subst hb
        have he : encodeJsonChar '\\' = ['\\', '\\'] := rfl
        rw [he]
        simp only [List.cons_append, List.nil_append]
        rw [parseStrBody_escBack, ih rest]
        rfl
      · by_cases hc : c.toNat < 0x20
        · have he : encodeJsonChar c =
              ['\\', 'u', '0', '0', hexDigit (c.toNat / 16), hexDigit (c.toNat % 16)] := by
            unfold encodeJsonChar
            rw [if_neg hq, if_neg hb, if_pos hc]
          rw [he]
          simp only [List.cons_append, List.nil_append]
          have e0 : hexVal '0' = some 0 := by decide
          have e3 : hexVal (hexDigit (c.toNat / 16)) = some (c.toNat / 16) :=
            hexVal_hexDigit (by omega)
          have e4 : hexVal (hexDigit (c.toNat % 16)) = some (c.toNat % 16) :=
            hexVal_hexDigit (by omega)
          rw [parseStrBody_u4 _ e0 e0 e3 e4 (by omega)]
          rw [ih rest]
          have harith : ((0 * 16 + 0) * 16 + c.toNat / 16) * 16 + c.toNat % 16 = c.toNat := by
            omega
          rw [harith, Char.ofNat_toNat]
          rfl
        · have he : encodeJsonChar c = [c] := by
            unfold encodeJsonChar
            rw [if_neg hq, if_neg hb, if_neg hc]
          rw [he]
          simp only [List.cons_append, List.nil_append]
          rw [parseStrBody_plain _ hq hb, if_neg hc, ih rest]
          rfl

theorem parseVal_digit {c : Char} (f : Nat) (r : List Char) (hc : c.isDigit = true) :
    parseVal (f + 1) (c :: r) = parseNumBody false (c :: r) := by
  conv_lhs => unfold parseVal
  split
  any_goals (rename_i heq; injection heq with he1 he2; subst he1; simp at hc)
  case h_10 =>
    rename_i heq
    injection heq with he1 he2
    subst he1
    subst he2
    rw [if_pos hc]
  case h_11 =>
    rename_i heq
    simp at heq

/-- One fuel step of `parseVal` on the decimal digits of `n` followed by a comma. -/
theorem parseVal_natDigits (f n : Nat) (rest : List Char) :
    parseVal (f + 1) (natDigits n ++ ',' :: rest) = some (Json.num n, ',' :: rest) := by
  cases hx : natDigits n with
  | nil => exact absurd hx (natDigits_ne_nil n)
  | cons c ds =>
    have hcd : c.isDigit = true := by
      have := natDigits_all_digits n
      rw [hx] at this
      exact this c (List.mem_cons_self _ _)
    rw [List.cons_append, parseVal_digit f _ hcd, ← List.cons_append, ← hx]
    exact parseNumBody_natDigits n rest

/-- One fuel step of `parseVal` on a dumped string literal. -/
theorem parseVal_encodedStr (f : Nat) (t : String) (rest : List Char) :
    parseVal (f + 1) ('"' :: (encodeStr t ++ '"' :: rest)) =
      some (Json.str t, rest) := by
  show (parseStrBody (encodeStr t ++ '"' :: rest)).map
      (fun p => (Json.str ⟨p.1⟩, p.2)) = _
  unfold encodeStr
  rw [parseStrBody_encode]
  rfl

theorem isDigit_not_ws {c : Char} (h : c.isDigit = true) : isJsonWs c = false := by
  by_contra hne
  have hw : isJsonWs c = true := by
    cases hx : isJsonWs c
    · exact absurd hx hne
    · rfl
  unfold isJsonWs at hw
  simp only [Bool.or_eq_true, decide_eq_true_eq] at hw
  rcases hw with ((h1 | h1) | h1) | h1 <;> (subst h1; simp at h)

theorem dropWhile_ws_natDigits (n : Nat) (tail : List Char) :
    List.dropWhile isJsonWs (natDigits n ++ tail) = natDigits n ++ tail := by
  cases hx : natDigits n with
  | nil => exact absurd hx (natDigits_ne_nil n)
  | cons c ds =>
    have hc : isJsonWs c = false := by
      apply isDigit_not_ws
      have := natDigits_all_digits n
      rw [hx] at this
      exact this c (List.mem_cons_self _ _)
    rw [List.cons_append, List.dropWhile_cons, hc]
    simp

/-- The full three-member object body of a dumped option value. -/
theorem objItems_dumpsBody (f m i : Nat) (t : String) (rest : List Char) :
    parseObjItems (f + 1 + 1 + 1 + 1)
      ('"' :: 'm' :: '"' :: ':' :: ' ' ::
        (natDigits m ++ ',' :: ' ' :: '"' :: 'i' :: '"' :: ':' :: ' ' ::
          (natDigits i ++ ',' :: ' ' :: '"' :: 't' :: 'e' :: 'x' :: 't' :: '"' ::
            ':' :: ' ' :: '"' :: (encodeStr t ++ '"' :: '}' :: rest)))) =
      some ([("m", Json.num m), ("i", Json.num i), ("text", Json.str t)], rest) := by
  have hkeyM : parseStrBody ('m' :: '"' :: ':' :: ' ' ::
      (natDigits m ++ ',' :: ' ' :: '"' :: 'i' :: '"' :: ':' :: ' ' ::
        (natDigits i ++ ',' :: ' ' :: '"' :: 't' :: 'e' :: 'x' :: 't' :: '"' ::
          ':' :: ' ' :: '"' :: (encodeStr t ++ '"' :: '}' :: rest)))) =
      some (['m'], ':' :: ' ' ::
        (natDigits m ++ ',' :: ' ' :: '"' :: 'i' :: '"' :: ':' :: ' ' ::
          (natDigits i ++ ',' :: ' ' :: '"' :: 't' :: 'e' :: 'x' :: 't' :: '"' ::
            ':' :: ' ' :: '"' :: (encodeStr t ++ '"' :: '}' :: rest)))) := rfl
  have hdM1 : List.dropWhile isJsonWs (':' :: ' ' ::
      (natDigits m ++ ',' :: ' ' :: '"' :: 'i' :: '"' :: ':' :: ' ' ::
        (natDigits i ++ ',' :: ' ' :: '"' :: 't' :: 'e' :: 'x' :: 't' :: '"' ::
          ':' :: ' ' :: '"' :: (encodeStr t ++ '"' :: '}' :: rest)))) =
      ':' :: ' ' ::
        (natDigits m ++ ',' :: ' ' :: '"' :: 'i' :: '"' :: ':' :: ' ' ::
          (natDigits i ++ ',' :: ' ' :: '"' :: 't' :: 'e' :: 'x' :: 't' :: '"' ::
            ':' :: ' ' :: '"' :: (encodeStr t ++ '"' :: '}' :: rest))) := rfl
  have hdM2 : List.dropWhile isJsonWs (' ' ::
      (natDigits m ++ ',' :: ' ' :: '"' :: 'i' :: '"' :: ':' :: ' ' ::
        (natDigits i ++ ',' :: ' ' :: '"' :: 't' :: 'e' :: 'x' :: 't' :: '"' ::
          ':' :: ' ' :: '"' :: (encodeStr t ++ '"' :: '}' :: rest)))) =
      natDigits m ++ ',' :: ' ' :: '"' :: 'i' :: '"' :: ':' :: ' ' ::
        (natDigits i ++ ',' :: ' ' :: '"' :: 't' :: 'e' :: 'x' :: 't' :: '"' ::
          ':' :: ' ' :: '"' :: (encodeStr t ++ '"' :: '}' :: rest)) := by
    show List.dropWhile isJsonWs
      (natDigits m ++ ',' :: ' ' :: '"' :: 'i' :: '"' :: ':' :: ' ' ::
        (natDigits i ++ ',' :: ' ' :: '"' :: 't' :: 'e' :: 'x' :: 't' :: '"' ::
          ':' :: ' ' :: '"' :: (encodeStr t ++ '"' :: '}' :: rest))) = _
    exact dropWhile_ws_natDigits m _
  have hvalM := parseVal_natDigits (f + 1 + 1) m
    (' ' :: '"' :: 'i' :: '"' :: ':' :: ' ' ::
      (natDigits i ++ ',' :: ' ' :: '"' :: 't' :: 'e' :: 'x' :: 't' :: '"' ::
        ':' :: ' ' :: '"' :: (encodeStr t ++ '"' :: '}' :: rest)))
  have hdM3 : List.dropWhile isJsonWs
      (',' :: ' ' :: '"' :: 'i' :: '"' :: ':' :: ' ' ::
        (natDigits i ++ ',' :: ' ' :: '"' :: 't' :: 'e' :: 'x' :: 't' :: '"' ::
          ':' :: ' ' :: '"' :: (encodeStr t ++ '"' :: '}' :: rest))) =
      ',' :: ' ' :: '"' :: 'i' :: '"' :: ':' :: ' ' ::
        (natDigits i ++ ',' :: ' ' :: '"' :: 't' :: 'e' :: 'x' :: 't' :: '"' ::
          ':' :: ' ' :: '"' :: (encodeStr t ++ '"' :: '}' :: rest)) := rfl
  have hdM4 : List.dropWhile isJsonWs
      (' ' :: '"' :: 'i' :: '"' :: ':' :: ' ' ::
        (natDigits i ++ ',' :: ' ' :: '"' :: 't' :: 'e' :: 'x' :: 't' :: '"' ::
          ':' :: ' ' :: '"' :: (encodeStr t ++ '"' :: '}' :: rest))) =
      '"' :: 'i' :: '"' :: ':' :: ' ' ::
        (natDigits i ++ ',' :: ' ' :: '"' :: 't' :: 'e' :: 'x' :: 't' :: '"' ::
          ':' :: ' ' :: '"' :: (encodeStr t ++ '"' :: '}' :: rest)) := rfl
  have hkeyI : parseStrBody ('i' :: '"' :: ':' :: ' ' ::
      (natDigits i ++ ',' :: ' ' :: '"' :: 't' :: 'e' :: 'x' :: 't' :: '"' ::
        ':' :: ' ' :: '"' :: (encodeStr t ++ '"' :: '}' :: rest))) =
      some (['i'], ':' :: ' ' ::
        (natDigits i ++ ',' :: ' ' :: '"' :: 't' :: 'e' :: 'x' :: 't' :: '"' ::
          ':' :: ' ' :: '"' :: (encodeStr t ++ '"' :: '}' :: rest))) := rfl
  have hdI1 : List.dropWhile isJsonWs (':' :: ' ' ::
      (natDigits i ++ ',' :: ' ' :: '"' :: 't' :: 'e' :: 'x' :: 't' :: '"' ::
        ':' :: ' ' :: '"' :: (encodeStr t ++ '"' :: '}' :: rest))) =
      ':' :: ' ' ::
        (natDigits i ++ ',' :: ' ' :: '"' :: 't' :: 'e' :: 'x' :: 't' :: '"' ::
          ':' :: ' ' :: '"' :: (encodeStr t ++ '"' :: '}' :: rest)) := rfl
  have hdI2 : List.dropWhile isJsonWs (' ' ::
      (natDigits i ++ ',' :: ' ' :: '"' :: 't' :: 'e' :: 'x' :: 't' :: '"' ::
        ':' :: ' ' :: '"' :: (encodeStr t ++ '"' :: '}' :: rest))) =
      natDigits i ++ ',' :: ' ' :: '"' :: 't' :: 'e' :: 'x' :: 't' :: '"' ::
        ':' :: ' ' :: '"' :: (encodeStr t ++ '"' :: '}' :: rest) := by
    show List.dropWhile isJsonWs
      (natDigits i ++ ',' :: ' ' :: '"' :: 't' :: 'e' :: 'x' :: 't' :: '"' ::
        ':' :: ' ' :: '"' :: (encodeStr t ++ '"' :: '}' :: rest)) = _
    exact dropWhile_ws_natDigits i _
  have hvalI := parseVal_natDigits (f + 1) i
    (' ' :: '"' :: 't' :: 'e' :: 'x' :: 't' :: '"' ::
      ':' :: ' ' :: '"' :: (encodeStr t ++ '"' :: '}' :: rest))
  have hdI3 : List.dropWhile isJsonWs
      (',' :: ' ' :: '"' :: 't' :: 'e' :: 'x' :: 't' :: '"' ::
        ':' :: ' ' :: '"' :: (encodeStr t ++ '"' :: '}' :: rest)) =
      ',' :: ' ' :: '"' :: 't' :: 'e' :: 'x' :: 't' :: '"' ::
        ':' :: ' ' :: '"' :: (encodeStr t ++ '"' :: '}' :: rest) := rfl
  have hdI4 : List.dropWhile isJsonWs
      (' ' :: '"' :: 't' :: 'e' :: 'x' :: 't' :: '"' ::
        ':' :: ' ' :: '"' :: (encodeStr t ++ '"' :: '}' :: rest)) =
      '"' :: 't' :: 'e' :: 'x' :: 't' :: '"' ::
        ':' :: ' ' :: '"' :: (encodeStr t ++ '"' :: '}' :: rest) := rfl
  have hkeyT : parseStrBody ('t' :: 'e' :: 'x' :: 't' :: '"' :: ':' :: ' ' :: '"' ::
      (encodeStr t ++ '"' :: '}' :: rest)) =
      some (['t', 'e', 'x', 't'],
        ':' :: ' ' :: '"' :: (encodeStr t ++ '"' :: '}' :: rest)) := rfl
  have hdT1 : List.dropWhile isJsonWs
      (':' :: ' ' :: '"' :: (encodeStr t ++ '"' :: '}' :: rest)) =
      ':' :: ' ' :: '"' :: (encodeStr t ++ '"' :: '}' :: rest) := rfl
  have hdT2 : List.dropWhile isJsonWs (' ' :: '"' :: (encodeStr t ++ '"' :: '}' :: rest)) =
      '"' :: (encodeStr t ++ '"' :: '}' :: rest) := rfl
  have hdT3 : List.dropWhile isJsonWs ('}' :: rest) = '}' :: rest := rfl
  simp only [parseObjItems, hkeyM, hdM1, hdM2, hvalM, hdM3, hdM4,
    hkeyI, hdI1, hdI2, hvalI, hdI3, hdI4,
    hkeyT, hdT1, hdT2, parseVal_encodedStr, hdT3]
  rfl

theorem parseVal_openBrace {c : Char} (f : Nat) (r r2 : List Char)
    (h : List.dropWhile isJsonWs r = c :: r2) (hc : c ≠ '}') :
    parseVal (f + 1) ('{' :: r) =
      (parseObjItems f (c :: r2)).map (fun p => (Json.obj p.1, p.2)) := by
  simp only [parseVal]
  rw [h]
  split
  case h_1 r3 heq =>
    injection heq with he1 _
    exact absurd he1 hc
  case h_2 => rfl

/-- `json.loads` inverts the renderer's `json.dumps` of an option value. -/
theorem loads_dumpsMIT (m i : Nat) (t : String) :
    loads (dumpsMIT m i t) =
      some (Json.obj [("m", Json.num m), ("i", Json.num i), ("text", Json.str t)]) := by
  have hform : (dumpsMIT m i t).toList =
      '{' :: '"' :: 'm' :: '"' :: ':' :: ' ' ::
        (natDigits m ++ ',' :: ' ' :: '"' :: 'i' :: '"' :: ':' :: ' ' ::
          (natDigits i ++ ',' :: ' ' :: '"' :: 't' :: 'e' :: 'x' :: 't' :: '"' ::
            ':' :: ' ' :: '"' :: (encodeStr t ++ '"' :: '}' :: []))) := by
    show "\x7b\"m\": ".toList ++ natDigits m ++ ", \"i\": ".toList ++ natDigits i ++
        ", \"text\": \"".toList ++ encodeStr t ++ "\"\x7d".toList = _
    simp only [List.append_assoc]
    rfl
  have hlen : 6 ≤ (dumpsMIT m i t).length := by
    have he : (dumpsMIT m i t).length =
        ("\x7b\"m\": ".toList ++ natDigits m ++ ", \"i\": ".toList ++ natDigits i ++
          ", \"text\": \"".toList ++ encodeStr t ++ "\"\x7d".toList).length := rfl
    rw [he]
    simp only [List.length_append]
    have h7 : ("\x7b\"m\": ".toList).length = 6 := by decide
    omega
  unfold loads
  rw [hform]
  have hdrop : List.dropWhile isJsonWs
      ('{' :: '"' :: 'm' :: '"' :: ':' :: ' ' ::
        (natDigits m ++ ',' :: ' ' :: '"' :: 'i' :: '"' :: ':' :: ' ' ::
          (natDigits i ++ ',' :: ' ' :: '"' :: 't' :: 'e' :: 'x' :: 't' :: '"' ::
            ':' :: ' ' :: '"' :: (encodeStr t ++ '"' :: '}' :: [])))) =
      '{' :: '"' :: 'm' :: '"' :: ':' :: ' ' ::
        (natDigits m ++ ',' :: ' ' :: '"' :: 'i' :: '"' :: ':' :: ' ' ::
          (natDigits i ++ ',' :: ' ' :: '"' :: 't' :: 'e' :: 'x' :: 't' :: '"' ::
            ':' :: ' ' :: '"' :: (encodeStr t ++ '"' :: '}' :: []))) := rfl
  rw [hdrop]
  rw [show 2 * (dumpsMIT m i t).length + 2 = (2 * (dumpsMIT m i t).length + 1) + 1 from rfl]
  have hd2 : List.dropWhile isJsonWs
      ('"' :: 'm' :: '"' :: ':' :: ' ' ::
        (natDigits m ++ ',' :: ' ' :: '"' :: 'i' :: '"' :: ':' :: ' ' ::
          (natDigits i ++ ',' :: ' ' :: '"' :: 't' :: 'e' :: 'x' :: 't' :: '"' ::
            ':' :: ' ' :: '"' :: (encodeStr t ++ '"' :: '}' :: [])))) =
      '"' :: 'm' :: '"' :: ':' :: ' ' ::
        (natDigits m ++ ',' :: ' ' :: '"' :: 'i' :: '"' :: ':' :: ' ' ::
          (natDigits i ++ ',' :: ' ' :: '"' :: 't' :: 'e' :: 'x' :: 't' :: '"' ::
            ':' :: ' ' :: '"' :: (encodeStr t ++ '"' :: '}' :: []))) := rfl
  rw [parseVal_openBrace (2 * (dumpsMIT m i t).length + 1) _ _ hd2 (by decide)]
  rw [show 2 * (dumpsMIT m i t).length + 1 =
      (2 * (dumpsMIT m i t).length - 3) + 1 + 1 + 1 + 1 from by omega]
  rw [objItems_dumpsBody (2 * (dumpsMIT m i t).length - 3) m i t []]
  rfl

/-- C2: the checklist reduction does not complete for every block sequence:
a pre-existing option whose value is not JSON (a legacy literal value) that is
not in the checked set crashes the second filtering pass (bot.py lines
240-243 run `json.loads` with no `try`), although the checked-value path
(lines 189-195) does fall back to the literal text as claimed. -/
theorem reducer_crash_on_legacy_value :
    rebuild_blocks_after_check "June 01, 2025"
      [Block.section (some "meeting_title_0") "*Weekly Sync*",
       Block.actions (some "meeting_actions_0")
         [⟨"done_checkbox_0", [⟨"legacy item", "legacy item"⟩], []⟩]]
      [] = none ∧
    checkedTextOf "legacy item" = some (PyScalar.str "legacy item") := by
  exact ⟨rfl, rfl⟩

/-- C3 counterexample: the reducer output depends on the current date — when
every item is checked, the all-done block embeds `datetime.now()`, so the
same block and checked-value arguments give different outputs on different
days. -/
theorem reducer_date_dependence_counterexample :
    rebuild_blocks_after_check "May 01, 2025"
      [Block.section (some "meeting_title_0") "*M*",
       Block.actions (some "meeting_actions_0")
         [⟨"done_checkbox_0", [⟨"task", dumpsMIT 0 0 "task"⟩], []⟩]]
      [dumpsMIT 0 0 "task"] ≠
    rebuild_blocks_after_check "May 02, 2025"
      [Block.section (some "meeting_title_0") "*M*",
       Block.actions (some "meeting_actions_0")
         [⟨"done_checkbox_0", [⟨"task", dumpsMIT 0 0 "task"⟩], []⟩]]
      [dumpsMIT 0 0 "task"] := by
  decide

/-- C3 amended: apart from the current date embedded in the all-done
terminal block, the reducer is deterministic in its two arguments — two runs
on equal blocks and checked values either agree exactly, or both runs have
reduced every item away and return their respective dated all-done block. -/
theorem reducer_determinism_given_date (d1 d2 : String) (B : List Block)
    (S : List String) :
    rebuild_blocks_after_check d1 B S = rebuild_blocks_after_check d2 B S ∨
    (rebuild_blocks_after_check d1 B S = some (build_all_done_blocks d1) ∧
     rebuild_blocks_after_check d2 B S = some (build_all_done_blocks d2)) := by
  cases hb : buildChecked S with
  | none =>
    left
    simp only [rebuild_blocks_after_check, hb]
  | some cs =>
    cases hl : rebuildLoop cs B with
    | none =>
      left
      simp only [rebuild_blocks_after_check, hb, hl]
    | some p =>
      obtain ⟨bs, rem⟩ := p
      cases rem
      · right
        constructor <;> simp [rebuild_blocks_after_check, hb, hl]
      · left
        simp [rebuild_blocks_after_check, hb, hl]

/-! ### The reducer walk on renderer-shaped blocks -/

theorem filterPass1_nice {o : Checkbox} (hn : OptionNice o) (checked : List PyScalar) :
    filterPass1 checked o = some (!decide (PyScalar.str o.text ∈ checked)) := by
  obtain ⟨kvs, hl, hk⟩ := hn
  simp only [filterPass1, hl, hk, toScalar]

theorem filterPass2Text_nice {o : Checkbox} (hn : OptionNice o) :
    filterPass2Text o = some (PyScalar.str o.text) := by
  obtain ⟨kvs, hl, hk⟩ := hn
  simp only [filterPass2Text, hl, hk, toScalar]

theorem optFilter_eq_filter {f : Checkbox → Option Bool} {p : Checkbox → Bool} :
    ∀ {opts : List Checkbox}, (∀ o ∈ opts, f o = some (p o)) →
    optFilter f opts = some (opts.filter p) := by
  intro opts
  induction opts with
  | nil => intro _; rfl
  | cons o r ih =>
    intro h
    have ho := h o (List.mem_cons_self _ _)
    have ihr := ih (fun o2 h2 => h o2 (List.mem_cons_of_mem _ h2))
    show optFilter f (o :: r) = _
    unfold optFilter
    rw [ho, List.filter_cons]
    cases hp : p o
    · simp only [hp]
      rw [ihr]
      simp
    · simp only [hp]
      rw [ihr]
      simp

theorem addInits_eq : ∀ (inits : List Checkbox) (checked : List PyScalar),
    (∀ o ∈ inits, initTextOf o ≠ none) →
    addInits checked inits = some ((initScalars inits).reverse ++ checked) := by
  intro inits
  induction inits with
  | nil => intro checked _; simp [addInits, initScalars]
  | cons o r ih =>
    intro checked h
    have ho : initTextOf o ≠ none := h o (List.mem_cons_self _ _)
    have hr := fun o2 h2 => h o2 (List.mem_cons_of_mem _ h2)
    cases hi : initTextOf o with
    | none => exact absurd hi ho
    | some topt =>
      cases topt with
      | none =>
        simp only [addInits, hi, ih checked hr]
        simp [initScalars, List.filterMap_cons, hi]
      | some t =>
        simp only [addInits, hi, ih (t :: checked) hr]
        simp [initScalars, List.filterMap_cons, hi, List.append_assoc]

theorem filter_absorb {α : Type} (p1 p2 : α → Bool) (l : List α)
    (h : ∀ a, p2 a = true → p1 a = true) :
    (l.filter p1).filter p2 = l.filter p2 := by
  induction l with
  | nil => rfl
  | cons a r ih =>
    cases hp2 : p2 a
    · cases hp1 : p1 a <;> simp [List.filter_cons, hp1, hp2, ih]
    · have hp1 : p1 a = true := h a hp2
      simp [List.filter_cons, hp1, hp2, ih]

theorem processElement_nice (checked : List PyScalar) (e : CheckboxElement)
    (hopts : ∀ o ∈ e.options, OptionNice o)
    (hinits : ∀ o ∈ e.initial_options, initTextOf o ≠ none) :
    processElement checked e =
      some (e.options.filter (fun o => !decide (PyScalar.str o.text ∈
          (initScalars e.initial_options).reverse ++ checked)),
        (initScalars e.initial_options).reverse ++ checked) := by
  have h1 : ∀ o ∈ e.options, filterPass1 checked o =
      some (!decide (PyScalar.str o.text ∈ checked)) :=
    fun o ho => filterPass1_nice (hopts o ho) checked
  have h2 : ∀ o ∈ e.options.filter (fun o => !decide (PyScalar.str o.text ∈ checked)),
      (filterPass2Text o).map
        (fun ts => !decide (ts ∈ (initScalars e.initial_options).reverse ++ checked)) =
      some (!decide (PyScalar.str o.text ∈
        (initScalars e.initial_options).reverse ++ checked)) := by
    intro o ho
    rw [filterPass2Text_nice (hopts o (List.mem_of_mem_filter ho))]
    rfl
  have habs : (e.options.filter
        (fun o => !decide (PyScalar.str o.text ∈ checked))).filter
        (fun o => !decide (PyScalar.str o.text ∈
          (initScalars e.initial_options).reverse ++ checked)) =
      e.options.filter (fun o => !decide (PyScalar.str o.text ∈
        (initScalars e.initial_options).reverse ++ checked)) := by
    apply filter_absorb
    intro o hp2
    simp only [Bool.not_eq_true', decide_eq_false_iff_not] at hp2 ⊢
    intro hmem
    exact hp2 (List.mem_append_right _ hmem)
  simp only [processElement, optFilter_eq_filter h1,
    addInits_eq e.initial_options checked hinits, optFilter_eq_filter h2, habs]

theorem groupStep_nice (checked : List PyScalar) (aid : String)
    (opts inits : List Checkbox)
    (hopts : ∀ o ∈ opts, OptionNice o)
    (hinits : ∀ o ∈ inits, initTextOf o ≠ none) :
    groupStep checked [⟨aid, opts, inits⟩] =
      some (opts.filter (fun o => !decide (PyScalar.str o.text ∈
          (initScalars inits).reverse ++ checked)),
        (initScalars inits).reverse ++ checked, ⟨aid, opts, inits⟩) := by
  show (processElement checked ⟨aid, opts, inits⟩).map _ = _
  rw [processElement_nice checked ⟨aid, opts, inits⟩ hopts hinits]
  rfl

theorem rebuildLoop_section_nontitle (cs : List PyScalar) (bid : Option String)
    (txt : String) (rest : List Block) (h : isTitleBlockId bid = false) :
    rebuildLoop cs (Block.section bid txt :: rest) =
      (rebuildLoop cs rest).map (fun p => (Block.section bid txt :: p.1, p.2)) := by
  cases rest with
  | nil => simp [rebuildLoop, h]
  | cons b r =>
    cases b
    case actions abid2 elems2 =>
      cases r with
      | nil => simp [rebuildLoop, h]
      | cons b2 r2 =>
        cases b2
        all_goals simp [rebuildLoop, h]
    all_goals simp [rebuildLoop, h]

theorem reduceSpecLoop_section_nontitle (cs : List PyScalar) (bid : Option String)
    (txt : String) (rest : List Block) (h : isTitleBlockId bid = false) :
    reduceSpecLoop cs (Block.section bid txt :: rest) =
      (Block.section bid txt :: (reduceSpecLoop cs rest).1,
        (reduceSpecLoop cs rest).2) := by
  cases rest with
  | nil => simp [reduceSpecLoop, h]
  | cons b r =>
    cases b
    case actions abid2 elems2 =>
      cases r with
      | nil => simp [reduceSpecLoop, h]
      | cons b2 r2 =>
        cases b2
        all_goals simp [reduceSpecLoop, h]
    all_goals simp [reduceSpecLoop, h]

theorem rebuildLoop_group_div (cs : List PyScalar) (bid : Option String)
    (txt : String) (abid : Option String) (elems : List CheckboxElement)
    (rest3 : List Block) (h : isTitleBlockId bid = true) :
    rebuildLoop cs (Block.section bid txt ::
        Block.actions abid elems :: Block.divider :: rest3) =
      (match groupStep cs elems with
       | none => none
       | some (remaining, checked2, e) =>
         (rebuildLoop checked2 rest3).map
           (fun p => emitGroup bid txt abid e remaining p.1 p.2)) := by
  simp [rebuildLoop, h]

theorem reduceSpecLoop_group_div (cs : List PyScalar) (bid : Option String)
    (txt : String) (abid : Option String) (elems : List CheckboxElement)
    (rest3 : List Block) (h : isTitleBlockId bid = true) :
    reduceSpecLoop cs (Block.section bid txt ::
        Block.actions abid elems :: Block.divider :: rest3) =
      (match elems with
       | [] => ([], false)
       | e :: _ =>
         emitGroup bid txt abid e
           (e.options.filter (fun o => !decide (PyScalar.str o.text ∈
             (initScalars e.initial_options).reverse ++ cs)))
           (reduceSpecLoop ((initScalars e.initial_options).reverse ++ cs) rest3).1
           (reduceSpecLoop ((initScalars e.initial_options).reverse ++ cs) rest3).2) := by
  simp [reduceSpecLoop, h]

theorem rebuildLoop_group_nodiv (cs : List PyScalar) (bid : Option String)
    (txt : String) (abid : Option String) (elems : List CheckboxElement)
    (rest2 : List Block) (h : isTitleBlockId bid = true)
    (hnd : ∀ r3, rest2 ≠ Block.divider :: r3) :
    rebuildLoop cs (Block.section bid txt :: Block.actions abid elems :: rest2) =
      (match groupStep cs elems with
       | none => none
       | some (remaining, checked2, e) =>
         (rebuildLoop checked2 rest2).map
           (fun p => emitGroup bid txt abid e remaining p.1 p.2)) := by
  cases rest2 with
  | nil => simp [rebuildLoop, h]
  | cons b r =>
    cases b
    case divider => exact absurd rfl (hnd r)
    all_goals simp [rebuildLoop, h]

theorem reduceSpecLoop_group_nodiv (cs : List PyScalar) (bid : Option String)
    (txt : String) (abid : Option String) (elems : List CheckboxElement)
    (rest2 : List Block) (h : isTitleBlockId bid = true)
    (hnd : ∀ r3, rest2 ≠ Block.divider :: r3) :
    reduceSpecLoop cs (Block.section bid txt :: Block.actions abid elems :: rest2) =
      (match elems with
       | [] => ([], false)
       | e :: _ =>
         emitGroup bid txt abid e
           (e.options.filter (fun o => !decide (PyScalar.str o.text ∈
             (initScalars e.initial_options).reverse ++ cs)))
           (reduceSpecLoop ((initScalars e.initial_options).reverse ++ cs) rest2).1
           (reduceSpecLoop ((initScalars e.initial_options).reverse ++ cs) rest2).2) := by
  cases rest2 with
  | nil => simp [reduceSpecLoop, h]
  | cons b r =>
    cases b
    case divider => exact absurd rfl (hnd r)
    all_goals simp [reduceSpecLoop, h]

/-- On renderer-shaped blocks the reducer walk never raises and equals its
one-pass description. -/
theorem rebuildLoop_eq_spec {B : List Block} (hB : NiceBlocks B) :
    ∀ cs, rebuildLoop cs B = some (reduceSpecLoop cs B) := by
  induction hB with
  | nil => intro cs; rfl
  | header t rest hrest ih =>
    intro cs
    show (rebuildLoop cs rest).map _ = _
    rw [ih cs]
    rfl
  | divider rest hrest ih =>
    intro cs
    exact ih cs
  | plain bid txt rest hbid hrest ih =>
    intro cs
    rw [rebuildLoop_section_nontitle cs bid txt rest hbid, ih cs,
      reduceSpecLoop_section_nontitle cs bid txt rest hbid]
    rfl
  | other p rest hrest ih =>
    intro cs
    show (rebuildLoop cs rest).map _ = _
    rw [ih cs]
    rfl
  | group bid txt abid aid opts inits rest htitle hne hopts hinits hrest ih =>
    intro cs
    have hgs := groupStep_nice cs aid opts inits hopts hinits
    cases rest with
    | nil =>
      have hnd : ∀ r3, ([] : List Block) ≠ Block.divider :: r3 := by
        intro r3 he
        simp at he
      simp only [rebuildLoop_group_nodiv cs bid txt abid [⟨aid, opts, inits⟩] [] htitle hnd,
        hgs, ih ((initScalars inits).reverse ++ cs),
        reduceSpecLoop_group_nodiv cs bid txt abid [⟨aid, opts, inits⟩] [] htitle hnd]
      rfl
    | cons b rest' =>
      cases b
      case divider =>
        have hh : rebuildLoop ((initScalars inits).reverse ++ cs) rest' =
            some (reduceSpecLoop ((initScalars inits).reverse ++ cs) rest') :=
          ih ((initScalars inits).reverse ++ cs)
        simp only [rebuildLoop_group_div cs bid txt abid [⟨aid, opts, inits⟩] rest' htitle,
          hgs, hh, reduceSpecLoop_group_div cs bid txt abid [⟨aid, opts, inits⟩] rest' htitle]
        rfl
      next t2 =>
        have hnd : ∀ r3, (Block.header t2 :: rest' : List Block) ≠ Block.divider :: r3 := by
          intro r3 he
          simp at he
        simp only [rebuildLoop_group_nodiv cs bid txt abid [⟨aid, opts, inits⟩] _ htitle hnd,
          hgs, ih ((initScalars inits).reverse ++ cs),
          reduceSpecLoop_group_nodiv cs bid txt abid [⟨aid, opts, inits⟩] _ htitle hnd]
        rfl
      next bid2 txt2 =>
        have hnd : ∀ r3, (Block.section bid2 txt2 :: rest' : List Block) ≠
            Block.divider :: r3 := by
          intro r3 he
          simp at he
        simp only [rebuildLoop_group_nodiv cs bid txt abid [⟨aid, opts, inits⟩] _ htitle hnd,
          hgs, ih ((initScalars inits).reverse ++ cs),
          reduceSpecLoop_group_nodiv cs bid txt abid [⟨aid, opts, inits⟩] _ htitle hnd]
        rfl
      next abid2 elems2 =>
        have hnd : ∀ r3, (Block.actions abid2 elems2 :: rest' : List Block) ≠
            Block.divider :: r3 := by
          intro r3 he
          simp at he
        simp only [rebuildLoop_group_nodiv cs bid txt abid [⟨aid, opts, inits⟩] _ htitle hnd,
          hgs, ih ((initScalars inits).reverse ++ cs),
          reduceSpecLoop_group_nodiv cs bid txt abid [⟨aid, opts, inits⟩] _ htitle hnd]
        rfl
      next p2 =>
        have hnd : ∀ r3, (Block.other p2 :: rest' : List Block) ≠ Block.divider :: r3 := by
          intro r3 he
          simp at he
        simp only [rebuildLoop_group_nodiv cs bid txt abid [⟨aid, opts, inits⟩] _ htitle hnd,
          hgs, ih ((initScalars inits).reverse ++ cs),
          reduceSpecLoop_group_nodiv cs bid txt abid [⟨aid, opts, inits⟩] _ htitle hnd]
        rfl

theorem blocksOptions_header (t : String) (bs : List Block) :
    blocksOptions (Block.header t :: bs) = blocksOptions bs := rfl

theorem blocksOptions_divider (bs : List Block) :
    blocksOptions (Block.divider :: bs) = blocksOptions bs := rfl

theorem blocksOptions_section (bid : Option String) (txt : String) (bs : List Block) :
    blocksOptions (Block.section bid txt :: bs) = blocksOptions bs := rfl

theorem blocksOptions_other (p : String) (bs : List Block) :
    blocksOptions (Block.other p :: bs) = blocksOptions bs := rfl

theorem blocksOptions_actions_single (abid : Option String) (aid : String)
    (opts inits : List Checkbox) (bs : List Block) :
    blocksOptions (Block.actions abid [⟨aid, opts, inits⟩] :: bs) =
      opts ++ blocksOptions bs := by
  show (([⟨aid, opts, inits⟩] : List CheckboxElement).map
      (fun e => e.options)).flatten ++ blocksOptions bs = _
  simp

theorem noInit_tail {b : Block} {bs : List Block} (h : NoInitBlocks (b :: bs)) :
    NoInitBlocks bs :=
  fun abid elems hm e he => h abid elems (List.mem_cons_of_mem _ hm) e he

theorem noInit_cons_nonactions {b : Block} {bs : List Block}
    (hb : ∀ abid elems, b ≠ Block.actions abid elems) (hbs : NoInitBlocks bs) :
    NoInitBlocks (b :: bs) := by
  intro abid elems hm e he
  rcases List.mem_cons.mp hm with h1 | h1
  · exact absurd h1.symm (hb abid elems)
  · exact hbs abid elems h1 e he

theorem noInit_cons_actions {abid : Option String} {elems : List CheckboxElement}
    {bs : List Block} (hel : ∀ e ∈ elems, e.initial_options = [])
    (hbs : NoInitBlocks bs) :
    NoInitBlocks (Block.actions abid elems :: bs) := by
  intro abid2 elems2 hm e he
  rcases List.mem_cons.mp hm with h1 | h1
  · injection h1 with _ h3
    subst h3
    exact hel e he
  · exact hbs abid2 elems2 h1 e he

theorem isTitleBlockId_none : isTitleBlockId none = false := rfl

theorem emitGroup_props (bid : Option String) (txt : String) (abid : Option String)
    (aid : String) (opts optsRest : List Checkbox) (p : Checkbox → Bool)
    (T : List Block × Bool)
    (htitle : isTitleBlockId bid = true)
    (hopts : ∀ o ∈ opts, OptionNice o)
    (h1 : blocksOptions T.1 = optsRest.filter p)
    (h2 : T.2 = !(optsRest.filter p).isEmpty)
    (h3 : NiceBlocks T.1)
    (h4 : NoInitBlocks T.1) :
    blocksOptions (emitGroup bid txt abid ⟨aid, opts, []⟩ (opts.filter p) T.1 T.2).1 =
      (opts ++ optsRest).filter p ∧
    (emitGroup bid txt abid ⟨aid, opts, []⟩ (opts.filter p) T.1 T.2).2 =
      !((opts ++ optsRest).filter p).isEmpty ∧
    NiceBlocks (emitGroup bid txt abid ⟨aid, opts, []⟩ (opts.filter p) T.1 T.2).1 ∧
    NoInitBlocks (emitGroup bid txt abid ⟨aid, opts, []⟩ (opts.filter p) T.1 T.2).1 := by
  cases hsurv : (opts.filter p).isEmpty
  · have hsne : opts.filter p ≠ [] := by
      intro he
      rw [he] at hsurv
      simp at hsurv
    simp only [emitGroup, hsurv, Bool.false_eq_true, if_false]
    refine ⟨?_, ?_, ?_, ?_⟩
    · rw [blocksOptions_divider, blocksOptions_section,
        blocksOptions_actions_single, h1, List.filter_append]
    · rw [List.filter_append]
      cases hx : opts.filter p with
      | nil => exact absurd hx hsne
      | cons o r => simp
    · exact NiceBlocks.divider _
        (NiceBlocks.group bid txt abid aid (opts.filter p) [] T.1 htitle hsne
          (fun o ho => hopts o (List.mem_of_mem_filter ho))
          (fun o ho => absurd ho (List.not_mem_nil o))
          h3)
    · apply noInit_cons_nonactions (by intro a b he; cases he)
      apply noInit_cons_nonactions (by intro a b he; cases he)
      apply noInit_cons_actions _ h4
      intro e he
      rw [List.mem_singleton] at he
      subst he
      rfl
  · have hsnil : opts.filter p = [] := by
      cases hx : opts.filter p with
      | nil => rfl
      | cons o r => rw [hx] at hsurv; simp at hsurv
    simp only [emitGroup, hsurv, if_true]
    refine ⟨?_, ?_, ?_, ?_⟩
    · rw [blocksOptions_divider, blocksOptions_section, h1,
        List.filter_append, hsnil, List.nil_append]
    · rw [h2, List.filter_append, hsnil, List.nil_append]
    · exact NiceBlocks.divider _
        (NiceBlocks.plain none (doneTitleText txt) T.1 isTitleBlockId_none h3)
    · apply noInit_cons_nonactions (by intro a b he; cases he)
      apply noInit_cons_nonactions (by intro a b he; cases he)
      exact h4

/-- On renderer-shaped blocks with no `initial_options`, the one-pass
description removes exactly the options whose decoded text is checked, its
remaining flag is the non-emptiness of the surviving options, and its output
is again renderer-shaped with no `initial_options`. -/
theorem spec_reduce_props {B : List Block} (hB : NiceBlocks B) :
    ∀ cs, NoInitBlocks B →
      blocksOptions (reduceSpecLoop cs B).1 =
        (blocksOptions B).filter (fun o => !decide (PyScalar.str o.text ∈ cs)) ∧
      (reduceSpecLoop cs B).2 =
        !((blocksOptions B).filter (fun o => !decide (PyScalar.str o.text ∈ cs))).isEmpty ∧
      NiceBlocks (reduceSpecLoop cs B).1 ∧
      NoInitBlocks (reduceSpecLoop cs B).1 := by
  induction hB with
  | nil =>
    intro cs _
    exact ⟨rfl, rfl, NiceBlocks.nil, fun abid elems hm => absurd hm (List.not_mem_nil _)⟩
  | header t rest hrest ih =>
    intro cs hNI
    obtain ⟨ih1, ih2, ih3, ih4⟩ := ih cs (noInit_tail hNI)
    refine ⟨?_, ?_, ?_, ?_⟩
    · show blocksOptions (Block.header t :: (reduceSpecLoop cs rest).1) = _
      rw [blocksOptions_header, blocksOptions_header, ih1]
    · show (reduceSpecLoop cs rest).2 = _
      rw [blocksOptions_header, ih2]
    · exact NiceBlocks.header t _ ih3
    · exact noInit_cons_nonactions (by intro a b he; cases he) ih4
  | divider rest hrest ih =>
    intro cs hNI
    obtain ⟨ih1, ih2, ih3, ih4⟩ := ih cs (noInit_tail hNI)
    exact ⟨ih1, ih2, ih3, ih4⟩
  | plain bid txt rest hbid hrest ih =>
    intro cs hNI
    obtain ⟨ih1, ih2, ih3, ih4⟩ := ih cs (noInit_tail hNI)
    rw [reduceSpecLoop_section_nontitle cs bid txt rest hbid]
    refine ⟨?_, ?_, ?_, ?_⟩
    · show blocksOptions (Block.section bid txt :: (reduceSpecLoop cs rest).1) = _
      rw [blocksOptions_section, blocksOptions_section, ih1]
    · show (reduceSpecLoop cs rest).2 = _
      rw [blocksOptions_section, ih2]
    · exact NiceBlocks.plain bid txt _ hbid ih3
    · exact noInit_cons_nonactions (by intro a b he; cases he) ih4
  | other p rest hrest ih =>
    intro cs hNI
    obtain ⟨ih1, ih2, ih3, ih4⟩ := ih cs (noInit_tail hNI)
    refine ⟨?_, ?_, ?_, ?_⟩
    · show blocksOptions (Block.other p :: (reduceSpecLoop cs rest).1) = _
      rw [blocksOptions_other, blocksOptions_other, ih1]
    · show (reduceSpecLoop cs rest).2 = _
      rw [blocksOptions_other, ih2]
    · exact NiceBlocks.other p _ ih3
    · exact noInit_cons_nonactions (by intro a b he; cases he) ih4
  | group bid txt abid aid opts inits rest htitle hne hopts hinits hrest ih =>
    intro cs hNI
    have hini : inits = [] := hNI abid [⟨aid, opts, inits⟩]
      (List.mem_cons_of_mem _ (List.mem_cons_self _ _)) ⟨aid, opts, inits⟩
      (List.mem_cons_self _ _)
    subst hini
    have hNIr : NoInitBlocks rest := noInit_tail (noInit_tail hNI)
    have hcs : (initScalars ([] : List Checkbox)).reverse ++ cs = cs := rfl
    have hwhole : blocksOptions
        (Block.section bid txt :: Block.actions abid [⟨aid, opts, []⟩] :: rest) =
        opts ++ blocksOptions rest := by
      rw [blocksOptions_section, blocksOptions_actions_single]
    cases rest with
    | nil =>
      have hnd : ∀ r3, ([] : List Block) ≠ Block.divider :: r3 := by
        intro r3 he
        simp at he
      obtain ⟨ih1, ih2, ih3, ih4⟩ := ih cs hNIr
      rw [reduceSpecLoop_group_nodiv cs bid txt abid [⟨aid, opts, []⟩] [] htitle hnd]
      rw [hwhole]
      exact emitGroup_props bid txt abid aid opts (blocksOptions []) _
        (reduceSpecLoop cs []) htitle hopts ih1 ih2 ih3 ih4
    | cons b rest' =>
      cases b
      case divider =>
        obtain ⟨ih1, ih2, ih3, ih4⟩ := ih cs hNIr
        have ih1' : blocksOptions (reduceSpecLoop cs rest').1 =
            (blocksOptions rest').filter
              (fun o => !decide (PyScalar.str o.text ∈ cs)) := ih1
        have ih2' : (reduceSpecLoop cs rest').2 =
            !((blocksOptions rest').filter
              (fun o => !decide (PyScalar.str o.text ∈ cs))).isEmpty := ih2
        have ih3' : NiceBlocks (reduceSpecLoop cs rest').1 := ih3
        have ih4' : NoInitBlocks (reduceSpecLoop cs rest').1 := ih4
        rw [reduceSpecLoop_group_div cs bid txt abid [⟨aid, opts, []⟩] rest' htitle]
        rw [hwhole, blocksOptions_divider]
        exact emitGroup_props bid txt abid aid opts (blocksOptions rest') _
          (reduceSpecLoop cs rest') htitle hopts ih1' ih2' ih3' ih4'
      next t2 =>
        have hnd : ∀ r3, (Block.header t2 :: rest' : List Block) ≠ Block.divider :: r3 := by
          intro r3 he
          simp at he
        obtain ⟨ih1, ih2, ih3, ih4⟩ := ih cs hNIr
        rw [reduceSpecLoop_group_nodiv cs bid txt abid [⟨aid, opts, []⟩] _ htitle hnd]
        rw [hwhole]
        exact emitGroup_props bid txt abid aid opts (blocksOptions (Block.header t2 :: rest')) _
          (reduceSpecLoop cs (Block.header t2 :: rest')) htitle hopts ih1 ih2 ih3 ih4
      next bid2 txt2 =>
        have hnd : ∀ r3, (Block.section bid2 txt2 :: rest' : List Block) ≠
            Block.divider :: r3 := by
          intro r3 he
          simp at he
        obtain ⟨ih1, ih2, ih3, ih4⟩ := ih cs hNIr
        rw [reduceSpecLoop_group_nodiv cs bid txt abid [⟨aid, opts, []⟩] _ htitle hnd]
        rw [hwhole]
        exact emitGroup_props bid txt abid aid opts
          (blocksOptions (Block.section bid2 txt2 :: rest')) _
          (reduceSpecLoop cs (Block.section bid2 txt2 :: rest')) htitle hopts ih1 ih2 ih3 ih4
      next abid2 elems2 =>
        have hnd : ∀ r3, (Block.actions abid2 elems2 :: rest' : List Block) ≠
            Block.divider :: r3 := by
          intro r3 he
          simp at he
        obtain ⟨ih1, ih2, ih3, ih4⟩ := ih cs hNIr
        rw [reduceSpecLoop_group_nodiv cs bid txt abid [⟨aid, opts, []⟩] _ htitle hnd]
        rw [hwhole]
        exact emitGroup_props bid txt abid aid opts
          (blocksOptions (Block.actions abid2 elems2 :: rest')) _
          (reduceSpecLoop cs (Block.actions abid2 elems2 :: rest')) htitle hopts ih1 ih2 ih3 ih4
      next p2 =>
        have hnd : ∀ r3, (Block.other p2 :: rest' : List Block) ≠ Block.divider :: r3 := by
          intro r3 he
          simp at he
        obtain ⟨ih1, ih2, ih3, ih4⟩ := ih cs hNIr
        rw [reduceSpecLoop_group_nodiv cs bid txt abid [⟨aid, opts, []⟩] _ htitle hnd]
        rw [hwhole]
        exact emitGroup_props bid txt abid aid opts
          (blocksOptions (Block.other p2 :: rest')) _
          (reduceSpecLoop cs (Block.other p2 :: rest')) htitle hopts ih1 ih2 ih3 ih4

theorem reduceSpecLoop_group_div_single (cs : List PyScalar) (bid : Option String)
    (txt : String) (abid : Option String) (aid : String) (opts inits : List Checkbox)
    (rest3 : List Block) (h : isTitleBlockId bid = true) :
    reduceSpecLoop cs (Block.section bid txt ::
        Block.actions abid [⟨aid, opts, inits⟩] :: Block.divider :: rest3) =
      emitGroup bid txt abid ⟨aid, opts, inits⟩
        (opts.filter (fun o => !decide (PyScalar.str o.text ∈
          (initScalars inits).reverse ++ cs)))
        (reduceSpecLoop ((initScalars inits).reverse ++ cs) rest3).1
        (reduceSpecLoop ((initScalars inits).reverse ++ cs) rest3).2 := by
  rw [reduceSpecLoop_group_div cs bid txt abid [⟨aid, opts, inits⟩] rest3 h]

theorem reduceSpecLoop_group_nodiv_single (cs : List PyScalar) (bid : Option String)
    (txt : String) (abid : Option String) (aid : String) (opts inits : List Checkbox)
    (rest2 : List Block) (h : isTitleBlockId bid = true)
    (hnd : ∀ r3, rest2 ≠ Block.divider :: r3) :
    reduceSpecLoop cs (Block.section bid txt ::
        Block.actions abid [⟨aid, opts, inits⟩] :: rest2) =
      emitGroup bid txt abid ⟨aid, opts, inits⟩
        (opts.filter (fun o => !decide (PyScalar.str o.text ∈
          (initScalars inits).reverse ++ cs)))
        (reduceSpecLoop ((initScalars inits).reverse ++ cs) rest2).1
        (reduceSpecLoop ((initScalars inits).reverse ++ cs) rest2).2 := by
  rw [reduceSpecLoop_group_nodiv cs bid txt abid [⟨aid, opts, inits⟩] rest2 h hnd]

/-- With an empty checked set every section block survives the one-pass
description (titles keep their group, labels are kept verbatim). -/
theorem spec_sections_preserved {B : List Block} (hB : NiceBlocks B) :
    NoInitBlocks B → ∀ bid txt, Block.section bid txt ∈ B →
      Block.section bid txt ∈ (reduceSpecLoop [] B).1 := by
  induction hB with
  | nil =>
    intro _ bid txt hm
    exact absurd hm (List.not_mem_nil _)
  | header t rest hrest ih =>
    intro hNI bid txt hm
    show Block.section bid txt ∈ Block.header t :: (reduceSpecLoop [] rest).1
    rcases List.mem_cons.mp hm with h1 | h1
    · cases h1
    · exact List.mem_cons_of_mem _ (ih (noInit_tail hNI) bid txt h1)
  | divider rest hrest ih =>
    intro hNI bid txt hm
    rcases List.mem_cons.mp hm with h1 | h1
    · cases h1
    · exact ih (noInit_tail hNI) bid txt h1
  | plain bid0 txt0 rest hbid hrest ih =>
    intro hNI bid txt hm
    rw [reduceSpecLoop_section_nontitle ([] : List PyScalar) bid0 txt0 rest hbid]
    rcases List.mem_cons.mp hm with h1 | h1
    · rw [h1]
      exact List.mem_cons_self _ _
    · exact List.mem_cons_of_mem _ (ih (noInit_tail hNI) bid txt h1)
  | other p rest hrest ih =>
    intro hNI bid txt hm
    show Block.section bid txt ∈ Block.other p :: (reduceSpecLoop [] rest).1
    rcases List.mem_cons.mp hm with h1 | h1
    · cases h1
    · exact List.mem_cons_of_mem _ (ih (noInit_tail hNI) bid txt h1)
  | group bid0 txt0 abid aid opts inits rest htitle hne hopts hinits hrest ih =>
    intro hNI bid txt hm
    have hini : inits = [] := hNI abid [⟨aid, opts, inits⟩]
      (List.mem_cons_of_mem _ (List.mem_cons_self _ _)) ⟨aid, opts, inits⟩
      (List.mem_cons_self _ _)
    subst hini
    have hNIr : NoInitBlocks rest := noInit_tail (noInit_tail hNI)
    have hfil : opts.filter (fun o => !decide (PyScalar.str o.text ∈
        (initScalars ([] : List Checkbox)).reverse ++ ([] : List PyScalar))) = opts := by
      apply List.filter_eq_self.mpr
      intro o _
      simp [initScalars]
    have hemit : ∀ (T : List Block × Bool),
        Block.section bid txt ∈
          (emitGroup bid0 txt0 abid ⟨aid, opts, []⟩ opts T.1 T.2).1 ↔
        (Block.section bid txt = Block.section bid0 txt0 ∨
          Block.section bid txt ∈ T.1) := by
      intro T
      have hoe : opts.isEmpty = false := by
        cases hx : opts with
        | nil => exact absurd hx hne
        | cons o r => rfl
      simp only [emitGroup, hoe, Bool.false_eq_true, if_false]
      constructor
      · intro hmm
        rcases List.mem_cons.mp hmm with h1 | h1
        · cases h1
        · rcases List.mem_cons.mp h1 with h2 | h2
          · exact Or.inl h2
          · rcases List.mem_cons.mp h2 with h3 | h3
            · cases h3
            · exact Or.inr h3
      · intro hmm
        rcases hmm with h1 | h1
        · rw [h1]
          exact List.mem_cons_of_mem _ (List.mem_cons_self _ _)
        · exact List.mem_cons_of_mem _ (List.mem_cons_of_mem _
            (List.mem_cons_of_mem _ h1))
    have hmem : Block.section bid txt = Block.section bid0 txt0 ∨
        Block.section bid txt ∈ rest := by
      rcases List.mem_cons.mp hm with h1 | h1
      · exact Or.inl h1
      · rcases List.mem_cons.mp h1 with h2 | h2
        · cases h2
        · exact Or.inr h2
    cases rest with
    | nil =>
      have hnd : ∀ r3, ([] : List Block) ≠ Block.divider :: r3 := by
        intro r3 he
        simp at he
      rw [reduceSpecLoop_group_nodiv_single ([] : List PyScalar) bid0 txt0 abid
        aid opts [] [] htitle hnd, hfil]
      apply (hemit _).mpr
      rcases hmem with h1 | h1
      · exact Or.inl h1
      · exact absurd h1 (List.not_mem_nil _)
    | cons b rest' =>
      cases b
      case divider =>
        rw [reduceSpecLoop_group_div_single ([] : List PyScalar) bid0 txt0 abid
          aid opts [] rest' htitle, hfil]
        apply (hemit _).mpr
        rcases hmem with h1 | h1
        · exact Or.inl h1
        · rcases List.mem_cons.mp h1 with h2 | h2
          · cases h2
          · exact Or.inr (ih hNIr bid txt (List.mem_cons_of_mem _ h2))
      all_goals {
        rw [reduceSpecLoop_group_nodiv_single ([] : List PyScalar) bid0 txt0 abid
          aid opts [] _ htitle (by intro r3 he; simp at he), hfil]
        apply (hemit _).mpr
        rcases hmem with h1 | h1
        · exact Or.inl h1
        · exact Or.inr (ih hNIr bid txt h1)
      }

/-! ### The rendered checklist is nice -/

theorem dropPref_self_append : ∀ (p x : List Char), dropPref p (p ++ x) = some x := by
  intro p
  induction p with
  | nil => intro x; rfl
  | cons c p' ih =>
    intro x
    show dropPref (c :: p') (c :: (p' ++ x)) = some x
    unfold dropPref
    rw [if_pos rfl]
    exact ih x

theorem isTitleBlockId_meeting (s : String) :
    isTitleBlockId (some ("meeting_title_" ++ s)) = true := by
  unfold isTitleBlockId
  have hd : (("meeting_title_" ++ s) : String).toList =
      "meeting_title_".toList ++ s.toList := by
    show (("meeting_title_" ++ s) : String).data = _
    exact String.data_append _ _
  rw [show ((some ("meeting_title_" ++ s) : Option String).getD "") =
    "meeting_title_" ++ s from rfl, hd, dropPref_self_append]
  rfl

theorem jsonLookup_mit (a b c : Json) :
    jsonLookup [("m", a), ("i", b), ("text", c)] "text" = some c := rfl

theorem groupOptions_nice (m : Nat) (items : List String) :
    ∀ o ∈ groupOptions m items, OptionNice o := by
  intro o ho
  obtain ⟨p, hp, rfl⟩ := List.mem_map.mp ho
  exact ⟨[("m", Json.num m), ("i", Json.num p.1), ("text", Json.str p.2)],
    loads_dumpsMIT m p.1 p.2, jsonLookup_mit _ _ _⟩

theorem groupOptions_ne_nil (m : Nat) (items : List String) (h : items ≠ []) :
    groupOptions m items ≠ [] := by
  cases hx : items with
  | nil => exact absurd hx h
  | cons i r =>
    subst hx
    simp [groupOptions, List.enum]

theorem groupBlocks_shape (m : Nat) (g : MeetingGroup) (h : g.items ≠ []) :
    groupBlocks m g =
      Block.section (some ("meeting_title_" ++ natStr m)) ("*" ++ g.title ++ "*") ::
      Block.actions (some ("meeting_actions_" ++ natStr m))
        [⟨"done_checkbox_" ++ natStr m, groupOptions m g.items, []⟩] ::
      Block.divider :: [] := by
  have hoe : (groupOptions m g.items).isEmpty = false := by
    cases hx : groupOptions m g.items with
    | nil => exact absurd hx (groupOptions_ne_nil m g.items h)
    | cons o r => rfl
  unfold groupBlocks
  rw [hoe]
  rfl

theorem nice_groups : ∀ (l : List (Nat × MeetingGroup)),
    (∀ p ∈ l, p.2.items ≠ []) →
    NiceBlocks ((l.map (fun p => groupBlocks p.1 p.2)).flatten) ∧
    NoInitBlocks ((l.map (fun p => groupBlocks p.1 p.2)).flatten) := by
  intro l
  induction l with
  | nil =>
    intro _
    exact ⟨NiceBlocks.nil, fun abid elems hm => absurd hm (List.not_mem_nil _)⟩
  | cons p l' ih =>
    intro h
    obtain ⟨ihn, ihi⟩ := ih (fun q hq => h q (List.mem_cons_of_mem _ hq))
    have hp := h p (List.mem_cons_self _ _)
    have hflat : ((p :: l').map (fun q => groupBlocks q.1 q.2)).flatten =
        Block.section (some ("meeting_title_" ++ natStr p.1)) ("*" ++ p.2.title ++ "*") ::
        Block.actions (some ("meeting_actions_" ++ natStr p.1))
          [⟨"done_checkbox_" ++ natStr p.1, groupOptions p.1 p.2.items, []⟩] ::
        Block.divider :: (l'.map (fun q => groupBlocks q.1 q.2)).flatten := by
      rw [List.map_cons, List.flatten_cons, groupBlocks_shape p.1 p.2 hp]
      rfl
    rw [hflat]
    constructor
    · exact NiceBlocks.group _ _ _ _ _ _ _ (isTitleBlockId_meeting _)
        (groupOptions_ne_nil p.1 p.2.items hp)
        (groupOptions_nice p.1 p.2.items)
        (fun o ho => absurd ho (List.not_mem_nil o))
        (NiceBlocks.divider _ ihn)
    · apply noInit_cons_nonactions (by intro a b he; cases he)
      apply noInit_cons_actions
      · intro e he
        rw [List.mem_singleton] at he
        subst he
        rfl
      · exact noInit_cons_nonactions (by intro a b he; cases he) ihi

theorem split_katie_nonempty : ∀ (gs : List MeetingGroup),
    (∀ g ∈ (split_katie_items gs).1, g.items ≠ []) ∧
    (∀ g ∈ (split_katie_items gs).2, g.items ≠ []) := by
  intro gs
  induction gs with
  | nil => exact ⟨fun g hg => absurd hg (List.not_mem_nil _),
      fun g hg => absurd hg (List.not_mem_nil _)⟩
  | cons g0 rest ih =>
    constructor
    · intro g hg
      show g.items ≠ []
      by_cases h1 : (g0.items.filter isKatieItem).isEmpty
      · have : (split_katie_items (g0 :: rest)).1 = (split_katie_items rest).1 := by
          simp [split_katie_items, h1]
        rw [this] at hg
        exact ih.1 g hg
      · have : (split_katie_items (g0 :: rest)).1 =
            ⟨g0.title, g0.items.filter isKatieItem⟩ :: (split_katie_items rest).1 := by
          simp [split_katie_items, h1]
        rw [this] at hg
        rcases List.mem_cons.mp hg with h2 | h2
        · subst h2
          show g0.items.filter isKatieItem ≠ []
          intro he
          rw [he] at h1
          exact h1 rfl
        · exact ih.1 g h2
    · intro g hg
      show g.items ≠ []
      by_cases h1 : (g0.items.filter (fun i => !isKatieItem i)).isEmpty
      · have : (split_katie_items (g0 :: rest)).2 = (split_katie_items rest).2 := by
          simp [split_katie_items, h1]
        rw [this] at hg
        exact ih.2 g hg
      · have : (split_katie_items (g0 :: rest)).2 =
            ⟨g0.title, g0.items.filter (fun i => !isKatieItem i)⟩ ::
              (split_katie_items rest).2 := by
          simp [split_katie_items, h1]
        rw [this] at hg
        rcases List.mem_cons.mp hg with h2 | h2
        · subst h2
          show g0.items.filter (fun i => !isKatieItem i) ≠ []
          intro he
          rw [he] at h1
          exact h1 rfl
        · exact ih.2 g h2

theorem build_nice (today : String) (gs : List MeetingGroup) :
    NiceBlocks (build_interactive_blocks today gs) ∧
    NoInitBlocks (build_interactive_blocks today gs) := by
  have hsplit := split_katie_nonempty gs
  have henum : ∀ p ∈ ((split_katie_items gs).1 ++ (split_katie_items gs).2).enum,
      p.2.items ≠ [] := by
    intro p hp
    have hmem : p.2 ∈ (split_katie_items gs).1 ++ (split_katie_items gs).2 := by
      have h3 := List.mem_enumFrom hp
      rw [h3.2.2]
      exact List.getElem_mem _
    rcases List.mem_append.mp hmem with h1 | h1
    · exact hsplit.1 p.2 h1
    · exact hsplit.2 p.2 h1
  obtain ⟨hgn, hgi⟩ := nice_groups _ henum
  unfold build_interactive_blocks
  by_cases h1 : (split_katie_items gs).1.isEmpty
  · by_cases h2 : (split_katie_items gs).2.isEmpty
    · simp [h1, h2]
      constructor
      · exact NiceBlocks.header _ _ (NiceBlocks.divider _ hgn)
      · exact noInit_cons_nonactions (by intro a b he; cases he)
          (noInit_cons_nonactions (by intro a b he; cases he) hgi)
    · simp [h1, h2]
      constructor
      · exact NiceBlocks.header _ _ (NiceBlocks.divider _ hgn)
      · exact noInit_cons_nonactions (by intro a b he; cases he)
          (noInit_cons_nonactions (by intro a b he; cases he) hgi)
  · by_cases h2 : (split_katie_items gs).2.isEmpty
    · simp [h1, h2]
      constructor
      · exact NiceBlocks.header _ _ (NiceBlocks.divider _
          (NiceBlocks.plain _ _ _ rfl hgn))
      · exact noInit_cons_nonactions (by intro a b he; cases he)
          (noInit_cons_nonactions (by intro a b he; cases he)
            (noInit_cons_nonactions (by intro a b he; cases he) hgi))
    · simp [h1, h2]
      constructor
      · exact NiceBlocks.header _ _ (NiceBlocks.divider _
          (NiceBlocks.plain _ _ _ rfl
            (NiceBlocks.divider _ (NiceBlocks.plain _ _ _ rfl hgn))))
      · exact noInit_cons_nonactions (by intro a b he; cases he)
          (noInit_cons_nonactions (by intro a b he; cases he)
            (noInit_cons_nonactions (by intro a b he; cases he)
              (noInit_cons_nonactions (by intro a b he; cases he)
                (noInit_cons_nonactions (by intro a b he; cases he) hgi))))

/-- Top-level reducer characterization: on a nice, init-free checklist and a
decodable checked-value list the reduction succeeds, and its output is again
nice, init-free, and holds exactly the options whose decoded text is not
checked. -/
theorem rebuild_nice_total (today : String) {B : List Block}
    (hN : NiceBlocks B) (hI : NoInitBlocks B) (S : List String) {cs : List PyScalar}
    (hS : buildChecked S = some cs) :
    ∃ B1, rebuild_blocks_after_check today B S = some B1 ∧
      blocksOptions B1 = (blocksOptions B).filter
        (fun o => !decide (PyScalar.str o.text ∈ cs)) ∧
      NiceBlocks B1 ∧ NoInitBlocks B1 := by
  obtain ⟨h1, h2, h3, h4⟩ := spec_reduce_props hN cs hI
  have hloop := rebuildLoop_eq_spec hN cs
  cases hflag : (reduceSpecLoop cs B).2
  · refine ⟨build_all_done_blocks today, ?_, ?_, ?_, ?_⟩
    · simp [rebuild_blocks_after_check, hS, hloop, hflag]
    · have hemp : (blocksOptions B).filter
          (fun o => !decide (PyScalar.str o.text ∈ cs)) = [] := by
        rw [hflag] at h2
        cases hx : (blocksOptions B).filter (fun o => !decide (PyScalar.str o.text ∈ cs)) with
        | nil => rfl
        | cons o r =>
          rw [hx] at h2
          simp at h2
      rw [hemp]
      rfl
    · exact NiceBlocks.plain none _ _ isTitleBlockId_none NiceBlocks.nil
    · exact noInit_cons_nonactions (by intro a b he; cases he)
        (fun abid elems hm => absurd hm (List.not_mem_nil _))
  · refine ⟨(reduceSpecLoop cs B).1, ?_, h1, h3, h4⟩
    simp [rebuild_blocks_after_check, hS, hloop, hflag]

/-- C5: reducing a rendered checklist that has at least one option with an
empty checked set is a content no-op: the reduction succeeds, the surviving
options are exactly those of the rendered checklist, and every section block
(meeting titles and labels) is still present. -/
theorem reducer_empty_noop (today today2 : String) (gs : List MeetingGroup)
    (hne : blocksOptions (build_interactive_blocks today gs) ≠ []) :
    ∃ B1, rebuild_blocks_after_check today2 (build_interactive_blocks today gs) []
        = some B1 ∧
      blocksOptions B1 = blocksOptions (build_interactive_blocks today gs) ∧
      ∀ bid txt, Block.section bid txt ∈ build_interactive_blocks today gs →
        Block.section bid txt ∈ B1 := by
  obtain ⟨hN, hI⟩ := build_nice today gs
  have hS : buildChecked [] = some [] := rfl
  have hfid : (blocksOptions (build_interactive_blocks today gs)).filter
      (fun o => !decide (PyScalar.str o.text ∈ ([] : List PyScalar))) =
      blocksOptions (build_interactive_blocks today gs) :=
    List.filter_eq_self.mpr (fun o _ => by simp)
  obtain ⟨h1, h2, h3, h4⟩ := spec_reduce_props hN ([] : List PyScalar) hI
  rw [hfid] at h1 h2
  have hflag : (reduceSpecLoop [] (build_interactive_blocks today gs)).2 = true := by
    rw [h2]
    cases hx : blocksOptions (build_interactive_blocks today gs) with
    | nil => exact absurd hx hne
    | cons o r => simp
  refine ⟨(reduceSpecLoop [] (build_interactive_blocks today gs)).1, ?_, h1, ?_⟩
  · simp [rebuild_blocks_after_check, hS, rebuildLoop_eq_spec hN ([] : List PyScalar), hflag]
  · intro bid txt hm
    exact spec_sections_preserved hN hI bid txt hm

/-- C4: reducer monotonicity.  Reducing a rendered checklist by `S1` and the
result by `S2` removes exactly the union of the items the two checked sets
imply, and the second result's options are a sublist of the first's (nothing
removed by `S1` reappears).  Moreover on any nice group unit the walk filters
the head group's options as if every `initial_options` entry had been
checked, so a group's remaining option set only shrinks. -/
theorem reducer_monotone_union :
    (∀ today today2 today3 gs S1 S2 cs1 cs2,
      buildChecked S1 = some cs1 → buildChecked S2 = some cs2 →
      ∃ B1 B2,
        rebuild_blocks_after_check today2 (build_interactive_blocks today gs) S1
          = some B1 ∧
        rebuild_blocks_after_check today3 B1 S2 = some B2 ∧
        blocksOptions B2 =
          (blocksOptions (build_interactive_blocks today gs)).filter
            (fun o => !decide (PyScalar.str o.text ∈ cs1) &&
              !decide (PyScalar.str o.text ∈ cs2)) ∧
        (blocksOptions B2).Sublist (blocksOptions B1)) ∧
    (∀ cs bid txt abid aid opts inits rest,
      NiceBlocks (Block.section bid txt ::
        Block.actions abid [⟨aid, opts, inits⟩] :: rest) →
      ∃ tb tf, rebuildLoop cs (Block.section bid txt ::
          Block.actions abid [⟨aid, opts, inits⟩] :: rest) =
        some (emitGroup bid txt abid ⟨aid, opts, inits⟩
          (opts.filter (fun o => !decide (PyScalar.str o.text ∈
            (initScalars inits).reverse ++ cs))) tb tf)) := by
  constructor
  · intro today today2 today3 gs S1 S2 cs1 cs2 hS1 hS2
    obtain ⟨hN, hI⟩ := build_nice today gs
    obtain ⟨B1, hB1eq, hB1opts, hB1nice, hB1noinit⟩ :=
      rebuild_nice_total today2 hN hI S1 hS1
    obtain ⟨B2, hB2eq, hB2opts, hB2nice, hB2noinit⟩ :=
      rebuild_nice_total today3 hB1nice hB1noinit S2 hS2
    refine ⟨B1, B2, hB1eq, hB2eq, ?_, ?_⟩
    · rw [hB2opts, hB1opts, List.filter_filter]
      apply List.filter_congr
      intro o _
      exact Bool.and_comm _ _
    · rw [hB2opts]
      exact List.filter_sublist _
  · intro cs bid txt abid aid opts inits rest hN
    cases hN with
    | plain _ _ _ hbid hrest => cases hrest
    | group _ _ _ _ _ _ _ htitle hne hopts hinits hrest =>
      have hchar := rebuildLoop_eq_spec
        (NiceBlocks.group bid txt abid aid opts inits rest htitle hne hopts hinits hrest) cs
      cases rest with
      | nil =>
        refine ⟨(reduceSpecLoop ((initScalars inits).reverse ++ cs) []).1,
          (reduceSpecLoop ((initScalars inits).reverse ++ cs) []).2, ?_⟩
        rw [hchar, reduceSpecLoop_group_nodiv_single cs bid txt abid aid opts inits []
          htitle (by intro r3 he; simp at he)]
      | cons b rest' =>
        cases b
        case divider =>
          refine ⟨(reduceSpecLoop ((initScalars inits).reverse ++ cs) rest').1,
            (reduceSpecLoop ((initScalars inits).reverse ++ cs) rest').2, ?_⟩
          rw [hchar, reduceSpecLoop_group_div_single cs bid txt abid aid opts inits
            rest' htitle]
        next t2 =>
          refine ⟨(reduceSpecLoop ((initScalars inits).reverse ++ cs) (Block.header t2 :: rest')).1,
            (reduceSpecLoop ((initScalars inits).reverse ++ cs) (Block.header t2 :: rest')).2, ?_⟩
          rw [hchar, reduceSpecLoop_group_nodiv_single cs bid txt abid aid opts inits
            (Block.header t2 :: rest') htitle (by intro r3 he; simp at he)]
        next bid2 txt2 =>
          refine ⟨(reduceSpecLoop ((initScalars inits).reverse ++ cs) (Block.section bid2 txt2 :: rest')).1,
            (reduceSpecLoop ((initScalars inits).reverse ++ cs) (Block.section bid2 txt2 :: rest')).2, ?_⟩
          rw [hchar, reduceSpecLoop_group_nodiv_single cs bid txt abid aid opts inits
            (Block.section bid2 txt2 :: rest') htitle (by intro r3 he; simp at he)]
        next abid2 elems2 =>
          refine ⟨(reduceSpecLoop ((initScalars inits).reverse ++ cs) (Block.actions abid2 elems2 :: rest')).1,
            (reduceSpecLoop ((initScalars inits).reverse ++ cs) (Block.actions abid2 elems2 :: rest')).2, ?_⟩
          rw [hchar, reduceSpecLoop_group_nodiv_single cs bid txt abid aid opts inits
            (Block.actions abid2 elems2 :: rest') htitle (by intro r3 he; simp at he)]
        next p2 =>
          refine ⟨(reduceSpecLoop ((initScalars inits).reverse ++ cs) (Block.other p2 :: rest')).1,
            (reduceSpecLoop ((initScalars inits).reverse ++ cs) (Block.other p2 :: rest')).2, ?_⟩
          rw [hchar, reduceSpecLoop_group_nodiv_single cs bid txt abid aid opts inits
            (Block.other p2 :: rest') htitle (by intro r3 he; simp at he)]

/-- C10: option matching is by decoded text only.  On any nice, init-free
checklist the surviving options are the result of a filter that inspects
nothing but the option's text (the `m`/`i` indices in the value never
matter), and consequently two options with equal text are both removed by a
checked set containing either one's value. -/
theorem reduction_matches_by_text_only :
    (∀ cs (B : List Block), NiceBlocks B → NoInitBlocks B →
      ∃ out flag, rebuildLoop cs B = some (out, flag) ∧
        blocksOptions out = (blocksOptions B).filter
          (fun o => !decide (PyScalar.str o.text ∈ cs))) ∧
    (∀ today today2 gs S cs B1 o1 o2,
      buildChecked S = some cs →
      o1 ∈ blocksOptions (build_interactive_blocks today gs) →
      o2 ∈ blocksOptions (build_interactive_blocks today gs) →
      o1.text = o2.text →
      PyScalar.str o1.text ∈ cs →
      rebuild_blocks_after_check today2 (build_interactive_blocks today gs) S
        = some B1 →
      o1 ∉ blocksOptions B1 ∧ o2 ∉ blocksOptions B1) := by
  constructor
  · intro cs B hN hI
    obtain ⟨h1, _, _, _⟩ := spec_reduce_props hN cs hI
    exact ⟨(reduceSpecLoop cs B).1, (reduceSpecLoop cs B).2,
      rebuildLoop_eq_spec hN cs, h1⟩
  · intro today today2 gs S cs B1 o1 o2 hS hm1 hm2 htext hchecked heq
    obtain ⟨hN, hI⟩ := build_nice today gs
    obtain ⟨B1', hB1eq, hB1opts, _, _⟩ := rebuild_nice_total today2 hN hI S hS
    have hB1 : B1 = B1' := by
      rw [heq] at hB1eq
      exact Option.some.inj hB1eq
    subst hB1
    rw [hB1opts]
    constructor
    · intro hmem
      have := (List.mem_filter.mp hmem).2
      simp only [Bool.not_eq_true', decide_eq_false_iff_not] at this
      exact this hchecked
    · intro hmem
      have := (List.mem_filter.mp hmem).2
      simp only [Bool.not_eq_true', decide_eq_false_iff_not] at this
      rw [← htext] at this
      exact this hchecked

set_option maxRecDepth 10000 in
/-- C5 witness: the no-op reduction at a concrete one-meeting checklist. -/
theorem reducer_empty_noop_witness :
    blocksOptions (build_interactive_blocks "May 01, 2025"
      [⟨"Standup", ["review the quarterly budget"]⟩]) ≠ [] ∧
    ∃ B1, rebuild_blocks_after_check "May 02, 2025"
        (build_interactive_blocks "May 01, 2025"
          [⟨"Standup", ["review the quarterly budget"]⟩]) [] = some B1 ∧
      blocksOptions B1 = blocksOptions (build_interactive_blocks "May 01, 2025"
        [⟨"Standup", ["review the quarterly budget"]⟩]) ∧
      ∀ bid txt, Block.section bid txt ∈ build_interactive_blocks "May 01, 2025"
          [⟨"Standup", ["review the quarterly budget"]⟩] →
        Block.section bid txt ∈ B1 :=
  ⟨by decide, reducer_empty_noop "May 01, 2025" "May 02, 2025"
    [⟨"Standup", ["review the quarterly budget"]⟩] (by decide)⟩

set_option maxRecDepth 10000 in
/-- C4 witness: the two-step reduction at a concrete checklist and a concrete
group unit. -/
theorem reducer_monotone_union_witness :
    (∃ B1 B2,
      rebuild_blocks_after_check "May 02, 2025" (build_interactive_blocks "May 01, 2025"
          [⟨"Standup", ["send agenda to katie", "prepare slides"]⟩])
          [dumpsMIT 0 0 "send agenda to katie"] = some B1 ∧
      rebuild_blocks_after_check "May 03, 2025" B1 [dumpsMIT 1 0 "prepare slides"]
        = some B2 ∧
      blocksOptions B2 =
        (blocksOptions (build_interactive_blocks "May 01, 2025"
            [⟨"Standup", ["send agenda to katie", "prepare slides"]⟩])).filter
          (fun o => !decide (PyScalar.str o.text ∈ [PyScalar.str "send agenda to katie"]) &&
            !decide (PyScalar.str o.text ∈ [PyScalar.str "prepare slides"])) ∧
      (blocksOptions B2).Sublist (blocksOptions B1)) ∧
    (∃ tb tf, rebuildLoop [PyScalar.str "unrelated"]
        (Block.section (some "meeting_title_0") "*T*" ::
          Block.actions (some "meeting_actions_0")
            [⟨"done_checkbox_0",
              [⟨"review the doc", dumpsMIT 0 0 "review the doc"⟩],
              [⟨"done already", dumpsMIT 0 1 "done already"⟩]⟩] :: []) =
      some (emitGroup (some "meeting_title_0") "*T*" (some "meeting_actions_0")
        ⟨"done_checkbox_0",
          [⟨"review the doc", dumpsMIT 0 0 "review the doc"⟩],
          [⟨"done already", dumpsMIT 0 1 "done already"⟩]⟩
        ([⟨"review the doc", dumpsMIT 0 0 "review the doc"⟩].filter
          (fun o => !decide (PyScalar.str o.text ∈
            (initScalars [⟨"done already", dumpsMIT 0 1 "done already"⟩]).reverse ++
              [PyScalar.str "unrelated"]))) tb tf)) := by
  constructor
  · exact reducer_monotone_union.1 "May 01, 2025" "May 02, 2025" "May 03, 2025"
      [⟨"Standup", ["send agenda to katie", "prepare slides"]⟩]
      [dumpsMIT 0 0 "send agenda to katie"] [dumpsMIT 1 0 "prepare slides"]
      [PyScalar.str "send agenda to katie"] [PyScalar.str "prepare slides"]
      (by decide) (by decide)
  · exact reducer_monotone_union.2 [PyScalar.str "unrelated"]
      (some "meeting_title_0") "*T*" (some "meeting_actions_0") "done_checkbox_0"
      [⟨"review the doc", dumpsMIT 0 0 "review the doc"⟩]
      [⟨"done already", dumpsMIT 0 1 "done already"⟩] []
      (NiceBlocks.group _ _ _ _ _ _ _ (by decide) (by decide)
        (by
          intro o ho
          rw [List.mem_singleton] at ho
          subst ho
          exact ⟨_, loads_dumpsMIT 0 0 "review the doc", jsonLookup_mit _ _ _⟩)
        (by
          intro o ho
          rw [List.mem_singleton] at ho
          subst ho
          intro he
          rw [show initTextOf ⟨"done already", dumpsMIT 0 1 "done already"⟩ =
            some (some (PyScalar.str "done already")) from by
              simp only [initTextOf, loads_dumpsMIT, jsonLookup_mit, toScalar]] at he
          cases he)
        NiceBlocks.nil)

set_option maxRecDepth 10000 in
/-- C10 witness: a concrete checklist where two groups share an option text
and checking one value removes both options. -/
theorem reduction_matches_by_text_only_witness :
    (∃ out flag, rebuildLoop [PyScalar.str "review the shared doc"]
        (build_interactive_blocks "May 01, 2025"
          [⟨"A", ["review the shared doc"]⟩, ⟨"B", ["review the shared doc"]⟩])
        = some (out, flag) ∧
      blocksOptions out = (blocksOptions (build_interactive_blocks "May 01, 2025"
          [⟨"A", ["review the shared doc"]⟩, ⟨"B", ["review the shared doc"]⟩])).filter
        (fun o => !decide (PyScalar.str o.text ∈ [PyScalar.str "review the shared doc"]))) ∧
    ((⟨"review the shared doc", dumpsMIT 0 0 "review the shared doc"⟩ : Checkbox) ∉
        blocksOptions [Block.section none
          "*All action items completed* — May 02, 2025 :white_check_mark:"] ∧
      (⟨"review the shared doc", dumpsMIT 1 0 "review the shared doc"⟩ : Checkbox) ∉
        blocksOptions [Block.section none
          "*All action items completed* — May 02, 2025 :white_check_mark:"]) := by
  constructor
  · exact reduction_matches_by_text_only.1 [PyScalar.str "review the shared doc"]
      (build_interactive_blocks "May 01, 2025"
        [⟨"A", ["review the shared doc"]⟩, ⟨"B", ["review the shared doc"]⟩])
      (build_nice "May 01, 2025"
        [⟨"A", ["review the shared doc"]⟩, ⟨"B", ["review the shared doc"]⟩]).1
      (build_nice "May 01, 2025"
        [⟨"A", ["review the shared doc"]⟩, ⟨"B", ["review the shared doc"]⟩]).2
  · exact reduction_matches_by_text_only.2 "May 01, 2025" "May 02, 2025"
      [⟨"A", ["review the shared doc"]⟩, ⟨"B", ["review the shared doc"]⟩]
      [dumpsMIT 0 0 "review the shared doc"]
      [PyScalar.str "review the shared doc"]
      [Block.section none "*All action items completed* — May 02, 2025 :white_check_mark:"]
      ⟨"review the shared doc", dumpsMIT 0 0 "review the shared doc"⟩
      ⟨"review the shared doc", dumpsMIT 1 0 "review the shared doc"⟩
      (by decide) (by decide) (by decide) rfl (by decide) (by decide)

end MeetingSync
